import Mathlib

/-!
Shallow embedding of `tools/build_site.py` (ingestion normalization and
deterministic path-resolution pipeline), together with theorems settling the
frozen claims about it.

Files are modelled as byte lists plus a readability flag (an `OSError` while
reading corresponds to `readable = false`).  Paths are relative `/`-separated
strings.  Python `bytes`/`str` operations are modelled on their ASCII
fragment: `bytes.lower`/`str.lower` lower-case `A`-`Z`, `bytes.lstrip`/
`str.strip` strip the six ASCII whitespace characters, and the regex classes
`\s`, `\d`, `\w` are their ASCII subsets.
-/

namespace BuildSite

/-- Does `l` start with `pat`?  (`bytes.startswith` / list prefix test.) -/
def hasPfx [DecidableEq α] : List α → List α → Bool
  | _, [] => true
  | [], _ :: _ => false
  | a :: as, b :: bs => if a = b then hasPfx as bs else false

/-- Does `l` contain `pat` as a contiguous sublist? (`in` on Python strings.) -/
def hasSub [DecidableEq α] : List α → List α → Bool
  | [], pat => hasPfx ([] : List α) pat
  | a :: t, pat => hasPfx (a :: t) pat || hasSub t pat

/-- Substring test lifted to strings. -/
def strHas (hay pat : String) : Bool := hasSub hay.data pat.data

/-- A file's on-disk data: raw bytes, and whether opening/reading succeeds
(`readable = false` models an `OSError` during `path.open`/`read`). -/
structure FileData where
  bytes : List Nat
  readable : Bool
deriving DecidableEq

/-- `read_head`: first `n` bytes of the file, `b""` on `OSError`. -/
def read_head (d : FileData) (n : Nat) : List Nat :=
  if d.readable then d.bytes.take n else []

/-- ASCII whitespace bytes stripped by `bytes.lstrip()`. -/
def isWsByte (b : Nat) : Bool :=
  b = 32 || b = 9 || b = 10 || b = 13 || b = 11 || b = 12

/-- `bytes.lower()`: lower-case the ASCII letters. -/
def lowerByte (b : Nat) : Nat := if 65 ≤ b ∧ b ≤ 90 then b + 32 else b

def bytesLstrip (bs : List Nat) : List Nat := bs.dropWhile isWsByte

def bytesLower (bs : List Nat) : List Nat := bs.map lowerByte

/-- `b"%PDF"` -/
def pdfMagic : List Nat := [37, 80, 68, 70]

/-- `b"PK\x03\x04"` -/
def zipMagic : List Nat := [80, 75, 3, 4]

/-- `b"<!doctype html"` -/
def doctypeBytes : List Nat := [60, 33, 100, 111, 99, 116, 121, 112, 101, 32, 104, 116, 109, 108]

/-- `b"<html"` -/
def htmlBytes : List Nat := [60, 104, 116, 109, 108]

/-- `bytes.decode("utf-8", errors="ignore")`, restricted to its ASCII
fragment: ASCII bytes decode to themselves, other bytes are dropped. -/
def decodeLossy (bs : List Nat) : String :=
  ⟨bs.filterMap (fun b => if b < 128 then some (Char.ofNat b) else none)⟩

/-- The error message built for an HTML page (filename plus decoded snippet). -/
def htmlErrMsg (name : String) (head : List Nat) : String :=
  "Downloaded HTML instead of a file for: " ++ name ++ "\n---\n"
    ++ decodeLossy (head.take 300) ++ "\n---"

/-- `sniff_kind_and_error`: classify a file by its first 2048 bytes.
Returns `(kind?, html_error?)` exactly as the Python function does. -/
def sniff_kind_and_error (name : String) (d : FileData) : Option String × Option String :=
  let head := read_head d 2048
  if head = [] then (none, none)
  else if hasPfx head pdfMagic then (some "pdf", none)
  else if hasPfx head zipMagic then (some "docx", none)
  else
    let head_l := bytesLower (bytesLstrip head)
    if hasPfx head_l doctypeBytes || hasPfx head_l htmlBytes then
      (none, some (htmlErrMsg name head))
    else (none, none)

/-! ### Path-string operations (`pathlib.PurePosixPath` fragment) -/

/-- `Path.name`: the last `/`-separated component. -/
def nameOf (p : String) : String :=
  ⟨(p.data.reverse.takeWhile (fun c => c ≠ '/')).reverse⟩

/-- `Path.suffix`: `name[i:]` for the last dot at `0 < i < len(name)-1`,
else `""`. -/
def extOf (p : String) : String :=
  let name := (nameOf p).data
  let revTail := name.reverse.takeWhile (fun c => c ≠ '.')
  if 0 < revTail.length ∧ revTail.length + 1 < name.length then
    ⟨'.' :: revTail.reverse⟩
  else ""

/-- `Path.stem`: the name with its suffix removed. -/
def stemOf (p : String) : String :=
  let n := (nameOf p).data
  ⟨n.take (n.length - (extOf p).data.length)⟩

/-- `Path.with_suffix(s)`: replace the suffix of the last component. -/
def withSuffix (p s : String) : String :=
  let d := p.data
  let n := (nameOf p).data
  ⟨d.take (d.length - n.length) ++ n.take (n.length - (extOf p).data.length) ++ s.data⟩

/-- Python `str.lower()` (ASCII fragment). -/
def strLower (s : String) : String := ⟨s.data.map Char.toLower⟩

/-- `p.suffix.lower()` -/
def extLower (p : String) : String := strLower (extOf p)

/-- The six ASCII whitespace characters of Python's `str.strip()` / `\s`. -/
def isPyWs (c : Char) : Bool :=
  c = ' ' || c = '\t' || c = '\n' || c = '\r' || c = '\x0b' || c = '\x0c'

/-- Python `str.strip()` (ASCII whitespace). -/
def pyStrip (s : String) : String :=
  ⟨((s.data.dropWhile isPyWs).reverse.dropWhile isPyWs).reverse⟩

/-- Split a character list at every occurrence of `sep` (Python
`str.split(sep)` semantics). -/
def splitChars (sep : Char) : List Char → List (List Char)
  | [] => [[]]
  | c :: cs =>
    let r := splitChars sep cs
    if c = sep then [] :: r
    else
      match r with
      | h :: t => (c :: h) :: t
      | [] => [[c]]

/-- Join a list of strings with a separator (`sep.join(parts)`). -/
def joinSep (sep : String) : List String → String
  | [] => ""
  | [a] => a
  | a :: b :: t => a ++ sep ++ joinSep sep (b :: t)

/-! ### The filesystem model and `normalize_downloaded_files` -/

/-- A directory tree: an association list from (relative, `/`-separated)
paths to file data.  Only regular files are listed, as in
`[p for p in root.rglob("*") if p.is_file()]`. -/
abbrev FS := List (String × FileData)

def fsHas (fs : FS) (p : String) : Bool := fs.any (fun e => e.1 = p)

def fsGet (fs : FS) (p : String) : Option FileData :=
  (fs.find? (fun e => e.1 = p)).map (·.2)

/-- `p.rename(target)`: move the entry at `p` to key `tgt`. -/
def fsRename (fs : FS) (p tgt : String) : FS :=
  fs.map (fun e => if e.1 = p then (tgt, e.2) else e)

/-- The `i`-th collision candidate `f"{base}-{i}{suf}"` of `unique_path`. -/
def candidateAt (t : String) (i : Nat) : String :=
  withSuffix t "" ++ "-" ++ Nat.repr i ++ extOf t

/-- `unique_path`: the target itself if free, else the first free
`base-i.suffix` for `i` in `1..999`; `none` models the `SystemExit` when all
candidates are taken. -/
def unique_path (fs : FS) (t : String) : Option String :=
  if fsHas fs t then
    match (List.range' 1 999).find? (fun i => !fsHas fs (candidateAt t i)) with
    | some i => some (candidateAt t i)
    | none => none
  else some t

/-- Extensions of shortcut-stub files skipped by the normalizer. -/
def stubExts : List String := [".gdoc", ".gsheet", ".gslides"]

structure ScanSt where
  fs : FS
  errs : List String
  renames : Nat
deriving DecidableEq

inductive NormErr where
  | htmlPages (msg : String)
  | uniqueExhausted (target : String)
deriving DecidableEq

/-- Lexicographic `<` on code-point sequences (Python string comparison). -/
def charsLt : List Char → List Char → Bool
  | [], [] => false
  | [], _ :: _ => true
  | _ :: _, [] => false
  | a :: as, b :: bs => if a = b then charsLt as bs else decide (a < b)

/-- Lexicographic `≤` on code-point sequences. -/
def charsLe : List Char → List Char → Bool
  | [], _ => true
  | _ :: _, [] => false
  | a :: as, b :: bs => if a = b then charsLe as bs else decide (a < b)

def strLtB (a b : String) : Bool := charsLt a.data b.data

def strLeB (a b : String) : Bool := charsLe a.data b.data

/-- Insert `x` into `l` after every element `y` with `le y x`: the insertion
step of a stable insertion sort. -/
def insertSorted (le : α → α → Bool) (x : α) : List α → List α
  | [] => [x]
  | y :: ys => if le y x then y :: insertSorted le x ys else x :: y :: ys

/-- Python's stable `sorted` with a boolean `≤` on keys.  (A stable sort's
output is determined by the input order and the key comparison, so the
insertion sort agrees with CPython's Timsort.) -/
def pySorted (le : α → α → Bool) (l : List α) : List α :=
  l.foldl (fun acc x => insertSorted le x acc) []

instance [DecidableEq ε] [DecidableEq α] : DecidableEq (Except ε α) := fun x y => by
  cases x <;> cases y
  case error.error a b => exact decidable_of_iff (a = b) (by simp)
  case error.ok a b => exact isFalse (by intro h; cases h)
  case ok.error a b => exact isFalse (by intro h; cases h)
  case ok.ok a b => exact decidable_of_iff (a = b) (by simp)

/-- `sorted(files, key=lambda x: str(x).lower())` over the tree's paths. -/
def sortedPaths (fs : FS) : List String :=
  pySorted (fun a b => strLeB (strLower a) (strLower b)) (fs.map Prod.fst)

/-- The body of the `for p in sorted(files, ...)` loop of
`normalize_downloaded_files`, acting on one path. -/
def normStep (st : ScanSt) (p : String) : Except NormErr ScanSt :=
  match fsGet st.fs p with
  | none => .ok st
  | some d =>
    if stubExts.contains (extLower p) then .ok st
    else
      match sniff_kind_and_error (nameOf p) d with
      | (_, some msg) => .ok { st with errs := st.errs ++ [msg] }
      | (none, none) => .ok st
      | (some kind, none) =>
        let ext := extLower p
        if ext = ".pdf" ∨ ext = ".docx" then
          if ext ≠ "." ++ kind then
            match unique_path st.fs (withSuffix p ("." ++ kind)) with
            | some tgt =>
              .ok { st with fs := fsRename st.fs p tgt, renames := st.renames + 1 }
            | none => .error (.uniqueExhausted (withSuffix p ("." ++ kind)))
          else .ok st
        else
          match unique_path st.fs (withSuffix p ("." ++ kind)) with
          | some tgt =>
            .ok { st with fs := fsRename st.fs p tgt, renames := st.renames + 1 }
          | none => .error (.uniqueExhausted (withSuffix p ("." ++ kind)))

/-- The scan over all files (everything before the final `if html_errors`). -/
def normScan (fs : FS) : Except NormErr ScanSt :=
  (sortedPaths fs).foldlM normStep { fs := fs, errs := [], renames := 0 }

def aggHeader : String :=
  "Drive download returned HTML pages (permission/login/redirect) instead of files.\nFix: Folder + files must be 'Anyone with the link' and 'Viewer'. Test in Incognito.\n\n"

/-- The aggregated `SystemExit` message (`"\n\n".join(html_errors[:3])`). -/
def aggMsg (errs : List String) : String :=
  aggHeader ++ joinSep "\n\n" (errs.take 3)

/-- `normalize_downloaded_files`: scan, then fail with the aggregated message
when any HTML error page was recorded.  On success, returns the resulting
tree together with the number of renames performed. -/
def normalize_downloaded_files (fs : FS) : Except NormErr (FS × Nat) :=
  match normScan fs with
  | .error e => .error e
  | .ok st =>
    if st.errs.isEmpty then .ok (st.fs, st.renames)
    else .error (.htmlPages (aggMsg st.errs))

/-! ### The entry resolver (`slugify` … `collect_entries`) -/

def isSlugChar (c : Char) : Bool := ('a' ≤ c && c ≤ 'z') || ('0' ≤ c && c ≤ '9')

/-- One pass replacing each maximal run of non-`[a-z0-9]` characters by a
single `-` (the composition of the two `re.sub` calls of `slugify`). -/
def slugCollapse : List Char → List Char
  | [] => []
  | c :: cs =>
    let rest := slugCollapse cs
    if isSlugChar c then c :: rest
    else match rest with
      | '-' :: _ => rest
      | _ => '-' :: rest

/-- `slugify`: lower-case, collapse non-alphanumeric runs to `-`, trim `-`,
fall back to `"item"`. -/
def slugify (text : String) : String :=
  let t := (pyStrip text).data.map Char.toLower
  let stripped := ((slugCollapse t).dropWhile (· = '-')).reverse.dropWhile (· = '-')
  if stripped.isEmpty then "item" else ⟨stripped.reverse⟩

/-- The `/`-separated components of the parent of a relative path
(`rel.parent.parts`). -/
def parentParts (p : String) : List String :=
  ((splitChars '/' p.data).map (fun l => (⟨l⟩ : String))).dropLast

/-- `safe_rel_dir`: slugify each directory component. -/
def safe_rel_dir (parts : List String) : List String :=
  (parts.filter (fun s => s ≠ "" && s ≠ ".")).map slugify

/-- `title_from_path`: stem with `_`/`-` turned into spaces, stripped,
falling back to the raw stem. -/
def title_from_path (p : String) : String :=
  let stem := stemOf p
  let t := pyStrip ⟨stem.data.map (fun c => if c = '_' ∨ c = '-' then ' ' else c)⟩
  if t = "" then stem else t

/-- ASCII fragment of the regex class `\d` (code points 48–57). -/
def isPyDigit (c : Char) : Bool := 48 ≤ c.toNat && c.toNat ≤ 57

/-- ASCII fragment of the regex class `\w` (word characters). -/
def isPyWord (c : Char) : Bool := c.isAlpha || c.isDigit || c = '_'

/-- `int` of a list of decimal digits. -/
def decimalVal (ds : List Char) : Nat :=
  ds.foldl (fun a c => 10 * a + (c.toNat - 48)) 0

/-- `leading_number_key`: `re.match(r"^\s*(\d{1,4})\b", title)` succeeds
exactly when the leading digit run (after optional whitespace) has length
1–4 and is followed by end-of-string or a non-word character; the key is
then `(int(run), title.lower())`, else `(10**9, title.lower())`. -/
def leading_number_key (title : String) : Nat × String :=
  let rest := title.data.dropWhile isPyWs
  let ds := rest.takeWhile isPyDigit
  let after := rest.drop ds.length
  if 1 ≤ ds.length && ds.length ≤ 4 && after.head?.all (fun c => !isPyWord c) then
    (decimalVal ds, strLower title)
  else (10 ^ 9, strLower title)

/-- The per-directory slug-count dictionary `used_slugs`, flattened to an
association list keyed by (directory parts, stem). -/
abbrev Used := List ((List String × String) × Nat)

def bucketGet (used : Used) (k : List String × String) : Option Nat :=
  (used.find? (fun e => e.1 = k)).map (·.2)

def bucketSet (used : Used) (k : List String × String) (v : Nat) : Used :=
  if used.any (fun e => e.1 = k) then
    used.map (fun e => if e.1 = k then (k, v) else e)
  else (k, v) :: used

/-- `disambiguate_slug`: first occurrence keeps the stem and sets the count
to 1; each later occurrence increments the count `n` and returns
`f"{stem}-{n}"`. -/
def disambiguate_slug (used : Used) (relDir : List String) (stem : String) :
    String × Used :=
  match bucketGet used (relDir, stem) with
  | none => (stem, bucketSet used (relDir, stem) 1)
  | some n => (stem ++ "-" ++ Nat.repr (n + 1), bucketSet used (relDir, stem) (n + 1))

structure Entry where
  kind : String
  title : String
  relDir : List String
  relStem : String
  src : String
  outHtml : String
  outFile : String
  sortKey : Nat × String
deriving DecidableEq

/-- `str(rel_dir)`: `"."` for `Path()`, else the joined parts. -/
def relDirStr (parts : List String) : String :=
  if parts.isEmpty then "." else joinSep "/" parts

def joinPath (parts : List String) : String := joinSep "/" parts

/-- The loop body of `collect_entries`, processing one file path. -/
def collectStep (acc : List Entry × Used) (p : String) : List Entry × Used :=
  let ext := extLower p
  if ext = ".docx" ∨ ext = ".pdf" then
    let relDir := safe_rel_dir (parentParts p)
    let desired := slugify (stemOf p)
    let (relStem, used') := disambiguate_slug acc.2 relDir desired
    let title := title_from_path p
    let key := leading_number_key title
    let e : Entry :=
      if ext = ".docx" then
        { kind := "docx", title := title, relDir := relDir, relStem := relStem,
          src := p,
          outHtml := joinPath ("docs" :: "notes" :: relDir ++ [relStem ++ ".html"]),
          outFile := joinPath ("docs" :: "downloads" :: relDir ++ [relStem ++ ".docx"]),
          sortKey := key }
      else
        { kind := "pdf", title := title, relDir := relDir, relStem := relStem,
          src := p,
          outHtml := joinPath ("docs" :: "notes" :: relDir ++ [relStem ++ ".pdf.html"]),
          outFile := joinPath ("docs" :: "downloads" :: relDir ++ [relStem ++ ".pdf"]),
          sortKey := key }
    (acc.1 ++ [e], used')
  else acc

/-- Lexicographic order on `(str(rel_dir).lower(), sort_key)` used by the
final `sorted` of `collect_entries` (Python tuple comparison). -/
def tripleLe (x y : String × Nat × String) : Prop :=
  strLtB x.1 y.1 = true ∨
    (x.1 = y.1 ∧ (x.2.1 < y.2.1 ∨ (x.2.1 = y.2.1 ∧ strLeB x.2.2 y.2.2 = true)))

instance (x y : String × Nat × String) : Decidable (tripleLe x y) :=
  inferInstanceAs (Decidable
    (strLtB x.1 y.1 = true ∨
      (x.1 = y.1 ∧ (x.2.1 < y.2.1 ∨ (x.2.1 = y.2.1 ∧ strLeB x.2.2 y.2.2 = true)))))

def entryKey (e : Entry) : String × Nat × String :=
  (strLower (relDirStr e.relDir), e.sortKey)

def entryLeB (a b : Entry) : Bool := decide (tripleLe (entryKey a) (entryKey b))

/-- `collect_entries`: walk the sorted file list, build entries with
disambiguated slugs, and sort by `(str(rel_dir).lower(), sort_key)`. -/
def collect_entries (fs : FS) : List Entry :=
  pySorted entryLeB (((sortedPaths fs).foldl collectStep ([], [])).1)

/-- Strict comparison of two sort keys (Python `<` on the `(int, str)`
tuples stored in `Entry.sort_key`). -/
def keyLt (a b : Nat × String) : Prop :=
  a.1 < b.1 ∨ (a.1 = b.1 ∧ strLtB a.2 b.2 = true)

instance (a b : Nat × String) : Decidable (keyLt a b) :=
  inferInstanceAs (Decidable (a.1 < b.1 ∨ (a.1 = b.1 ∧ strLtB a.2 b.2 = true)))

/-! ### Build pipeline: manifest and failure capture (`main` / `on_failure`) -/

structure Manifest where
  status : String
  error : Option String
  currentEntry : Option Entry
  counts : Nat
  entries : List Entry
deriving DecidableEq

/-- `write_manifest`: the JSON payload, as a record. -/
def write_manifest (entries : List Entry) (status : String) (error : Option String)
    (current : Option Entry) : Manifest :=
  { status := status, error := error, currentEntry := current,
    counts := entries.length, entries := entries }

structure FailureArtifact where
  error : String
  currentEntry : Option Entry
  logTailLines : Nat
  logTail : String
deriving DecidableEq

/-- Python's `lines[-n:]` (with `lines[-0:]` being the whole list). -/
def pySliceLast (l : List String) (n : Nat) : List String :=
  if n = 0 then l else l.drop (l.length - n)

/-- `tail_file`: last `n` lines of the log, joined. -/
def tail_file (lines : List String) (n : Nat) : String :=
  if lines.isEmpty then "" else joinSep "\n" (pySliceLast lines n)

/-- `on_failure`: writes the `failed` manifest and the failure artifact. -/
def on_failure (error : String) (entries : List Entry) (current : Option Entry)
    (log : List String) (tailLines : Nat) : Manifest × FailureArtifact :=
  (write_manifest entries "failed" (some error) current,
   { error := error, currentEntry := current, logTailLines := tailLines,
     logTail := tail_file log tailLines })

/-- `assert_has_docs`: `root.rglob("*.docx")` / `root.rglob("*.pdf")`
non-empty (case-sensitive glob). -/
def assert_has_docs (fs : FS) : Bool :=
  fs.any (fun e => extOf e.1 = ".docx") || fs.any (fun e => extOf e.1 = ".pdf")

/-- `str(e)` of the `SystemExit`s raised below `main`. -/
def normErrText : NormErr → String
  | .htmlPages m => m
  | .uniqueExhausted t => "Could not find unique filename for " ++ t

def noDocsMsg : String :=
  "No .docx/.pdf found after sync.\nEnsure Drive folder is public (Anyone with the link) + Viewer and files are real .docx/.pdf."

/-- Inputs of one `main` run.  External effects (the gdown fetch, the
per-entry mammoth/pdf build, the index rendering) are abstracted as outcome
parameters: `none`/`.ok` for success, the exception text otherwise. -/
structure RunCfg where
  doSync : Bool
  doBuild : Bool
  envUrl : String
  syncFetch : Except String FS
  initialFs : FS
  buildResult : Entry → Option String
  indexResult : Option String
  log : List String
  tailLines : Nat

/-- Observable outputs of one `main` run: the `write_manifest` calls in
order, the failure artifact (if `on_failure` ran), and whether the process
exited cleanly. -/
structure RunOut where
  manifests : List Manifest
  failure : Option FailureArtifact
  ok : Bool

/-- The sync phase of `main`: `require_env_url`, `sync_drive_folder`,
`normalize_downloaded_files`, `assert_has_docs`.  Returns the tree the build
phase will read, or the text of the exception that aborted the run. -/
def syncPhase (cfg : RunCfg) : Except String FS :=
  if cfg.doSync then
    if pyStrip cfg.envUrl = "" then .error "GDRIVE_FOLDER_URL env is empty."
    else
      match cfg.syncFetch with
      | .error e => .error e
      | .ok fs0 =>
        match normalize_downloaded_files fs0 with
        | .error e => .error (normErrText e)
        | .ok (fs1, _) =>
          if assert_has_docs fs1 then .ok fs1 else .error noDocsMsg
  else .ok cfg.initialFs

/-- `main`: sync phase, then build phase, with every uncaught condition
routed through `on_failure` exactly as the `try/except` does
(`entries = []` and `current_entry = None` until assigned). -/
def mainModel (cfg : RunCfg) : RunOut :=
  match syncPhase cfg with
  | .error e =>
    let r := on_failure e [] none cfg.log cfg.tailLines
    { manifests := [r.1], failure := some r.2, ok := false }
  | .ok fsUsed =>
    if cfg.doBuild then
      let entries := collect_entries fsUsed
      let m0 := write_manifest entries "collected" none none
      match entries.findSome? (fun e => (cfg.buildResult e).map (fun err => (e, err))) with
      | some (e, err) =>
        let r := on_failure err entries (some e) cfg.log cfg.tailLines
        { manifests := [m0, r.1], failure := some r.2, ok := false }
      | none =>
        match cfg.indexResult with
        | some err =>
          let r := on_failure err entries entries.getLast? cfg.log cfg.tailLines
          { manifests := [m0, r.1], failure := some r.2, ok := false }
        | none =>
          { manifests := [m0, write_manifest entries "success" none none],
            failure := none, ok := true }
    else { manifests := [], failure := none, ok := true }

/-- The desired (pre-disambiguation) stem of an entry: `slugify(rel.stem)`
recomputed from its source path. -/
def desiredOf (e : Entry) : String := slugify (stemOf e.src)

/-- The stem `disambiguate_slug` hands to the `k`-th entry (0-based) with
the same desired stem in the same directory: the first keeps it, the
`k`-th gets `-{k+1}`. -/
def expectedStem (s : String) (k : Nat) : String :=
  if k = 0 then s else s ++ "-" ++ Nat.repr (k + 1)

/-- Two entries clash-free in the amended sense: equal directories and equal
desired stems force distinct resolved stems. -/
def stemClashFree (a b : Entry) : Prop :=
  a.relDir = b.relDir → desiredOf a = desiredOf b → a.relStem ≠ b.relStem

/-- A well-formed tree: distinct paths, and every path has a non-empty
final component (as any real directory listing does). -/
def WF (fs : FS) : Prop :=
  (fs.map Prod.fst).Nodup ∧ ∀ p ∈ fs.map Prod.fst, nameOf p ≠ ""

instance (fs : FS) : Decidable (WF fs) :=
  inferInstanceAs (Decidable (_ ∧ ∀ p ∈ fs.map Prod.fst, nameOf p ≠ ""))

/-- The scan invariant for a file surviving at path `q` with data `d`: it is
a skipped stub, a recorded error page (with the error list non-empty), an
unrecognized file, or a document whose extension matches its signature. -/
def MatchInv (q : String) (d : FileData) (errs : List String) : Prop :=
  stubExts.contains (extLower q) = true ∨
  ((sniff_kind_and_error (nameOf q) d).2 ≠ none ∧ errs ≠ []) ∨
  sniff_kind_and_error (nameOf q) d = (none, none) ∨
  (∃ k, sniff_kind_and_error (nameOf q) d = (some k, none) ∧
    (k = "pdf" ∨ k = "docx") ∧ extLower q = "." ++ k)

/-- The html-error message the scan records for path `p` of the original
tree, if any: `none` for missing, stub-skipped, or non-error files. -/
def errOf (orig : FS) (p : String) : Option String :=
  match fsGet orig p with
  | none => none
  | some d =>
    if stubExts.contains (extLower p) then none
    else (sniff_kind_and_error (nameOf p) d).2

/-! ### Concrete example inputs used by counterexamples and witnesses -/

/-- `b"%PDF-1"` -/
def pdfBytes : List Nat := [37, 80, 68, 70, 45, 49]

/-- A ZIP local-file-header prefix. -/
def zipBytes : List Nat := [80, 75, 3, 4, 20, 0]

/-- An HTML error page body. -/
def htmlPage : List Nat := "<html><body>login</body></html>".data.map Char.toNat

/-- One wrongly-named text file: `a.pdf` holding plain text. -/
def exMisnamed : FS := [("a.pdf", ⟨"hello".data.map Char.toNat, true⟩)]

/-- Four HTML error pages, to exercise the 3-message cap. -/
def exFourHtml : FS :=
  [("a.bin", ⟨htmlPage, true⟩), ("b.bin", ⟨htmlPage, true⟩),
   ("c.bin", ⟨htmlPage, true⟩), ("d.bin", ⟨htmlPage, true⟩)]

/-- The scan state reached on `exFourHtml`: no renames, four messages. -/
def fourHtmlSt : ScanSt :=
  ⟨exFourHtml, (sortedPaths exFourHtml).filterMap (errOf exFourHtml), 0⟩

/-- The aggregated failure message produced for `exFourHtml`. -/
def fourHtmlMsg : String := aggMsg fourHtmlSt.errs

/-- A tree needing two renames (`A.txt` is a PDF, `sub/B` is a DOCX). -/
def exRenames : FS := [("A.txt", ⟨pdfBytes, true⟩), ("sub/B", ⟨zipBytes, true⟩)]

/-- The already-normalized form of `exRenames`. -/
def exRenamesDone : FS := [("A.pdf", ⟨pdfBytes, true⟩), ("sub/B.docx", ⟨zipBytes, true⟩)]

/-- Three same-directory files whose desired stems are `note`, `note-2`,
`note`: the suffix appended for the third collides with the second. -/
def exStemClash : FS :=
  [("note!.docx", ⟨zipBytes, true⟩), ("note-2.docx", ⟨zipBytes, true⟩),
   ("note.docx", ⟨zipBytes, true⟩)]

/-- The spec's end-to-end pair `Note.docx` / `note!!.docx`. -/
def exNotePair : FS := [("Note.docx", ⟨zipBytes, true⟩), ("note!!.docx", ⟨zipBytes, true⟩)]

/-- Equal titles in two sibling directories: distinct entries, equal keys. -/
def exEqualKeys : FS :=
  [("a/01 Intro.docx", ⟨zipBytes, true⟩), ("b/01 Intro.docx", ⟨zipBytes, true⟩)]

/-- A run requesting sync + build whose sync phase fails (empty env URL). -/
def exSyncFailCfg : RunCfg :=
  { doSync := true, doBuild := true, envUrl := "", syncFetch := .ok [],
    initialFs := [], buildResult := fun _ => none, indexResult := none,
    log := ["l1", "l2", "l3"], tailLines := 2 }

/-! ### Helper lemmas: prefix/substring tests and code-point orders -/

theorem hasPfx_iff [DecidableEq α] (l pat : List α) :
    hasPfx l pat = true ↔ ∃ r, l = pat ++ r := by
  induction pat generalizing l with
  | nil => simp [hasPfx]
  | cons b bs ih =>
    cases l with
    | nil => simp [hasPfx]
    | cons a as =>
      simp only [hasPfx]
      by_cases h : a = b
      · subst h
        rw [if_pos rfl, ih]
        constructor
        · rintro ⟨r, rfl⟩; exact ⟨r, rfl⟩
        · rintro ⟨r, hr⟩
          exact ⟨r, by simpa using hr⟩
      · rw [if_neg h]
        constructor
        · intro hf; exact absurd hf (by simp)
        · rintro ⟨r, hr⟩
          exact absurd (by simpa using congrArg (List.head? ·) hr) (by simpa using h)

theorem hasSub_iff [DecidableEq α] (l pat : List α) :
    hasSub l pat = true ↔ ∃ u v, l = u ++ pat ++ v := by
  induction l with
  | nil =>
    simp only [hasSub, hasPfx_iff]
    constructor
    · rintro ⟨r, hr⟩
      exact ⟨[], r, by simpa using hr⟩
    · rintro ⟨u, v, huv⟩
      have hu : u = [] := by
        cases u with
        | nil => rfl
        | cons x xs => simp at huv
      subst hu
      exact ⟨v, by simpa using huv⟩
  | cons a as ih =>
    simp only [hasSub, Bool.or_eq_true, hasPfx_iff, ih]
    constructor
    · rintro (⟨r, hr⟩ | ⟨u, v, huv⟩)
      · exact ⟨[], r, by simpa using hr⟩
      · exact ⟨a :: u, v, by simp [huv]⟩
    · rintro ⟨u, v, huv⟩
      cases u with
      | nil => exact Or.inl ⟨v, by simpa using huv⟩
      | cons x xs =>
        simp only [List.cons_append, List.cons.injEq] at huv
        exact Or.inr ⟨xs, v, huv.2⟩

theorem charsLt_irrefl (l : List Char) : charsLt l l = false := by
  induction l with
  | nil => rfl
  | cons a as ih => simp [charsLt, ih]

theorem charsLt_trans {a b c : List Char} (h1 : charsLt a b = true)
    (h2 : charsLt b c = true) : charsLt a c = true := by
  induction a generalizing b c with
  | nil =>
    cases b with
    | nil => simp [charsLt] at h1
    | cons y ys =>
      cases c with
      | nil => simp [charsLt] at h2
      | cons z zs => rfl
  | cons x xs ih =>
    cases b with
    | nil => simp [charsLt] at h1
    | cons y ys =>
      cases c with
      | nil => simp [charsLt] at h2
      | cons z zs =>
        simp only [charsLt] at h1 h2 ⊢
        by_cases hxy : x = y
        · subst hxy
          rw [if_pos rfl] at h1
          by_cases hxz : x = z
          · subst hxz; rw [if_pos rfl] at h2; rw [if_pos rfl]; exact ih h1 h2
          · rw [if_neg hxz] at h2; rw [if_neg hxz]; exact h2
        · rw [if_neg hxy] at h1
          by_cases hyz : y = z
          · subst hyz; rw [if_neg hxy]; exact h1
          · rw [if_neg hyz] at h2
            have hxz : x < z := lt_trans (by simpa using h1) (by simpa using h2)
            rw [if_neg (by rintro rfl; exact absurd hxz (lt_irrefl _))]
            simpa using hxz

theorem charsLt_trichot (a b : List Char) :
    charsLt a b = true ∨ a = b ∨ charsLt b a = true := by
  induction a generalizing b with
  | nil =>
    cases b with
    | nil => exact Or.inr (Or.inl rfl)
    | cons y ys => exact Or.inl rfl
  | cons x xs ih =>
    cases b with
    | nil => exact Or.inr (Or.inr rfl)
    | cons y ys =>
      by_cases hxy : x = y
      · subst hxy
        rcases ih ys with h | h | h
        · exact Or.inl (by simp [charsLt, h])
        · exact Or.inr (Or.inl (by rw [h]))
        · exact Or.inr (Or.inr (by simp [charsLt, h]))
      · rcases lt_trichotomy x y with h | h | h
        · exact Or.inl (by simp [charsLt, hxy, h])
        · exact absurd h hxy
        · refine Or.inr (Or.inr ?_)
          simp [charsLt, Ne.symm hxy, h]

theorem charsLe_iff (a b : List Char) :
    charsLe a b = true ↔ (charsLt a b = true ∨ a = b) := by
  induction a generalizing b with
  | nil => cases b <;> simp [charsLe, charsLt]
  | cons x xs ih =>
    cases b with
    | nil => simp [charsLe, charsLt]
    | cons y ys =>
      by_cases hxy : x = y
      · subst hxy; simp [charsLe, charsLt, ih]
      · simp [charsLe, charsLt, hxy]

theorem charsLe_total (a b : List Char) : charsLe a b = true ∨ charsLe b a = true := by
  rcases charsLt_trichot a b with h | h | h
  · exact Or.inl ((charsLe_iff a b).2 (Or.inl h))
  · exact Or.inl ((charsLe_iff a b).2 (Or.inr h))
  · exact Or.inr ((charsLe_iff b a).2 (Or.inl h))

theorem charsLe_trans {a b c : List Char} (h1 : charsLe a b = true)
    (h2 : charsLe b c = true) : charsLe a c = true := by
  rcases (charsLe_iff a b).1 h1 with h1' | rfl
  · rcases (charsLe_iff b c).1 h2 with h2' | rfl
    · exact (charsLe_iff a c).2 (Or.inl (charsLt_trans h1' h2'))
    · exact h1
  · exact h2

/-! ### Helper lemmas about the classifier -/

theorem read_head_empty (d : FileData) (n : Nat)
    (h : d.bytes = [] ∨ d.readable = false) : read_head d n = [] := by
  rcases h with h | h <;> simp [read_head, h]

theorem hasPfx_nil_cons [DecidableEq α] (b : α) (bs : List α) :
    hasPfx ([] : List α) (b :: bs) = false := rfl

theorem hasPfx_cons_ne [DecidableEq α] {a b : α} (t bs : List α) (h : a ≠ b) :
    hasPfx (a :: t) (b :: bs) = false := by simp [hasPfx, h]

theorem hasPfx_cons_shape [DecidableEq α] {l bs : List α} {b : α}
    (h : hasPfx l (b :: bs) = true) : ∃ t, l = b :: t := by
  rw [hasPfx_iff] at h
  obtain ⟨r, rfl⟩ := h
  exact ⟨bs ++ r, rfl⟩

theorem bytesLstrip_cons_not_ws {a : Nat} (t : List Nat) (h : isWsByte a = false) :
    bytesLstrip (a :: t) = a :: t := by
  simp [bytesLstrip, List.dropWhile_cons, h]

theorem bytesLower_cons (a : Nat) (t : List Nat) :
    bytesLower (a :: t) = lowerByte a :: bytesLower t := rfl

/-- After a `%PDF` or `PK\x03\x04` prefix, the lstripped-lowercased head
cannot start with `<`. -/
theorem html_test_false_of_head {a : Nat} (t : List Nat)
    (hw : isWsByte a = false) (hl : lowerByte a ≠ 60) :
    (hasPfx (bytesLower (bytesLstrip (a :: t))) doctypeBytes
      || hasPfx (bytesLower (bytesLstrip (a :: t))) htmlBytes) = false := by
  rw [bytesLstrip_cons_not_ws t hw, bytesLower_cons]
  rw [show doctypeBytes = 60 :: [33, 100, 111, 99, 116, 121, 112, 101, 32, 104, 116, 109, 108] from rfl,
    show htmlBytes = 60 :: [104, 116, 109, 108] from rfl,
    hasPfx_cons_ne _ _ hl, hasPfx_cons_ne _ _ hl]
  rfl

/-- C1.  The classifier's outcome is a function of the read prefix alone:
`pdf` iff the prefix starts with `%PDF`, `docx` iff it starts with
`PK\x03\x04`, error-page iff the lstripped, lower-cased prefix starts with
`<!doctype html` or `<html`; an empty or unreadable file yields unknown
(`(none, none)`), and the file's name never influences the outcome. -/
theorem sniff_depends_only_on_prefix (name : String) (d : FileData) :
    ((sniff_kind_and_error name d).1 = some "pdf"
        ↔ hasPfx (read_head d 2048) pdfMagic = true) ∧
    ((sniff_kind_and_error name d).1 = some "docx"
        ↔ hasPfx (read_head d 2048) zipMagic = true) ∧
    ((sniff_kind_and_error name d).2.isSome = true
        ↔ (hasPfx (bytesLower (bytesLstrip (read_head d 2048))) doctypeBytes
            || hasPfx (bytesLower (bytesLstrip (read_head d 2048))) htmlBytes) = true) ∧
    (d.bytes = [] ∨ d.readable = false → sniff_kind_and_error name d = (none, none)) ∧
    (∀ name' : String,
      (sniff_kind_and_error name' d).1 = (sniff_kind_and_error name d).1 ∧
      ((sniff_kind_and_error name' d).2.isSome = (sniff_kind_and_error name d).2.isSome)) := by
  have main : ∀ nm : String,
      (read_head d 2048 = [] → sniff_kind_and_error nm d = (none, none)) ∧
      (hasPfx (read_head d 2048) pdfMagic = true →
        sniff_kind_and_error nm d = (some "pdf", none)) ∧
      (hasPfx (read_head d 2048) pdfMagic = false →
        hasPfx (read_head d 2048) zipMagic = true →
        sniff_kind_and_error nm d = (some "docx", none)) := by
    intro nm
    refine ⟨fun h0 => by simp [sniff_kind_and_error, h0], fun h1 => ?_, fun h1 h2 => ?_⟩
    · obtain ⟨t, ht⟩ := hasPfx_cons_shape (by simpa [pdfMagic] using h1)
      have hne : read_head d 2048 ≠ [] := by rw [ht]; simp
      simp only [sniff_kind_and_error]
      rw [if_neg hne, if_pos h1]
    · obtain ⟨t, ht⟩ := hasPfx_cons_shape (by simpa [zipMagic] using h2)
      have hne : read_head d 2048 ≠ [] := by rw [ht]; simp
      simp only [sniff_kind_and_error]
      rw [if_neg hne, if_neg (by simp [h1]), if_pos h2]
  by_cases h0 : read_head d 2048 = []
  · have hall : ∀ nm : String, sniff_kind_and_error nm d = (none, none) :=
      fun nm => (main nm).1 h0
    rw [hall name]
    refine ⟨?_, ?_, ?_, fun _ => rfl, fun name' => by rw [hall name']; exact ⟨rfl, rfl⟩⟩
    · simp [h0, pdfMagic, hasPfx_nil_cons]
    · simp [h0, zipMagic, hasPfx_nil_cons]
    · simp [h0, bytesLstrip, bytesLower, doctypeBytes, htmlBytes, hasPfx_nil_cons]
  · by_cases h1 : hasPfx (read_head d 2048) pdfMagic = true
    · have hall : ∀ nm : String, sniff_kind_and_error nm d = (some "pdf", none) :=
        fun nm => (main nm).2.1 h1
      obtain ⟨t, ht⟩ := hasPfx_cons_shape (by simpa [pdfMagic] using h1)
      have hhtml := html_test_false_of_head (a := 37) t (by decide) (by decide)
      rw [hall name]
      refine ⟨by simp [h1], ?_, ?_, ?_, fun name' => by rw [hall name']; exact ⟨rfl, rfl⟩⟩
      · constructor
        · intro h; exact absurd (Option.some.inj h) (by decide)
        · intro h
          obtain ⟨t', ht'⟩ := hasPfx_cons_shape (by simpa [zipMagic] using h)
          rw [ht] at ht'; exact absurd (List.head_eq_of_cons_eq ht') (by decide)
      · rw [← ht] at hhtml
        simp [hhtml]
      · intro h; exact absurd (read_head_empty d 2048 h) h0
    · by_cases h2 : hasPfx (read_head d 2048) zipMagic = true
      · have hall : ∀ nm : String, sniff_kind_and_error nm d = (some "docx", none) :=
          fun nm => (main nm).2.2 (by simpa using h1) h2
        obtain ⟨t, ht⟩ := hasPfx_cons_shape (by simpa [zipMagic] using h2)
        have hhtml := html_test_false_of_head (a := 80) t (by decide) (by decide)
        rw [hall name]
        refine ⟨?_, by simp [h2], ?_, ?_, fun name' => by rw [hall name']; exact ⟨rfl, rfl⟩⟩
        · constructor
          · intro h; exact absurd (Option.some.inj h) (by decide)
          · intro h; exact absurd h h1
        · rw [← ht] at hhtml
          simp [hhtml]
        · intro h; exact absurd (read_head_empty d 2048 h) h0
      · have hall : ∀ nm : String, sniff_kind_and_error nm d =
            (if hasPfx (bytesLower (bytesLstrip (read_head d 2048))) doctypeBytes
                || hasPfx (bytesLower (bytesLstrip (read_head d 2048))) htmlBytes then
              (none, some (htmlErrMsg nm (read_head d 2048)))
            else (none, none)) := by
          intro nm
          simp only [sniff_kind_and_error]
          rw [if_neg h0, if_neg h1, if_neg h2]
        rw [hall name]
        by_cases h3 : (hasPfx (bytesLower (bytesLstrip (read_head d 2048))) doctypeBytes
            || hasPfx (bytesLower (bytesLstrip (read_head d 2048))) htmlBytes) = true
        · rw [if_pos h3]
          refine ⟨by simpa using h1, by simpa using h2, by simp [h3], ?_,
            fun name' => by rw [hall name', if_pos h3]; exact ⟨rfl, rfl⟩⟩
          intro h; exact absurd (read_head_empty d 2048 h) h0
        · rw [if_neg h3]
          refine ⟨by simpa using h1, by simpa using h2, by simp [h3], fun _ => rfl,
            fun name' => by rw [hall name', if_neg h3]; exact ⟨rfl, rfl⟩⟩


/-- Witness for C1 at a concrete input: an empty file is classified
`(none, none)` (unknown). -/
theorem sniff_depends_only_on_prefix_witness :
    sniff_kind_and_error "f.pdf" ⟨[], true⟩ = (none, none) :=
  ( sniff_depends_only_on_prefix "f.pdf" ⟨[], true⟩).2.2.2.1 (Or.inl rfl)

/-- C10.  A title whose leading digit run is 5 or more digits long matches
no numeric prefix (`\d{1,4}\b` cannot stop inside the run), so it receives
the sentinel key `10**9` and sorts among the unnumbered titles. -/
theorem five_digit_titles_get_sentinel (title : String)
    (h : 5 ≤ ((title.data.dropWhile isPyWs).takeWhile isPyDigit).length) :
    leading_number_key title = (10 ^ 9, strLower title) := by
  simp only [leading_number_key]
  split
  · next hc =>
    exfalso
    simp only [Bool.and_eq_true, decide_eq_true_eq] at hc
    omega
  · rfl

/-- Witness for C10 at the concrete title `"12345 Lecture"`. -/
theorem five_digit_titles_get_sentinel_witness :
    5 ≤ (("12345 Lecture".data.dropWhile isPyWs).takeWhile isPyDigit).length ∧
    leading_number_key "12345 Lecture" = (10 ^ 9, strLower "12345 Lecture") :=
  ⟨by decide, five_digit_titles_get_sentinel "12345 Lecture" (by decide)⟩

/-- Counterexample to C6: on `{Note.docx, note!!.docx}` the second file in
case-insensitive path order (`Note.docx`) receives stem `note-2`, not
`note-1` (the counter is set to 1 on first use and pre-incremented). -/
theorem note_pair_counterexample :
    ((collect_entries exNotePair).map (fun e => (e.src, e.relStem))
        = [("Note.docx", "note-2"), ("note!!.docx", "note")]) ∧
    ("Note.docx", "note-1") ∉ (collect_entries exNotePair).map (fun e => (e.src, e.relStem)) := by
  decide

/-- C6 amended: `note!!.docx` (first in case-insensitive path-sorted order)
keeps stem `note`; `Note.docx` (second) receives `note-2`. -/
theorem note_pair_stems :
    (collect_entries exNotePair).map (fun e => (e.src, e.relStem))
      = [("Note.docx", "note-2"), ("note!!.docx", "note")] := by
  decide

/-- Counterexample to C8: two distinct entries (directories `a` and `b`,
same title `01 Intro`) carry equal sort keys. -/
theorem equal_keys_counterexample :
    ((collect_entries exEqualKeys).map Entry.sortKey)[0]?
        = ((collect_entries exEqualKeys).map Entry.sortKey)[1]? ∧
    ((collect_entries exEqualKeys).map Entry.sortKey)[0]? ≠ none ∧
    (collect_entries exEqualKeys)[0]? ≠ (collect_entries exEqualKeys)[1]? := by
  decide

/-- C8 amended: comparison of sort-key values (`keyLt`) is a strict total
order — irreflexive, transitive and trichotomous — usable with the stable
sort; distinct entries may still carry equal keys. -/
theorem sort_key_strict_total_order :
    (∀ a : Nat × String, ¬ keyLt a a) ∧
    (∀ a b c : Nat × String, keyLt a b → keyLt b c → keyLt a c) ∧
    (∀ a b : Nat × String, keyLt a b ∨ a = b ∨ keyLt b a) := by
  refine ⟨?_, ?_, ?_⟩
  · rintro ⟨n, s⟩ h
    simp only [keyLt] at h
    rcases h with h | ⟨-, h⟩
    · exact lt_irrefl _ h
    · rw [strLtB, charsLt_irrefl] at h
      exact Bool.false_ne_true h
  · rintro ⟨n₁, s₁⟩ ⟨n₂, s₂⟩ ⟨n₃, s₃⟩ h h'
    simp only [keyLt] at h h' ⊢
    rcases h with h | ⟨rfl, h⟩ <;> rcases h' with h' | ⟨rfl, h'⟩
    · exact Or.inl (lt_trans h h')
    · exact Or.inl h
    · exact Or.inl h'
    · exact Or.inr ⟨rfl, charsLt_trans h h'⟩
  · rintro ⟨n₁, s₁⟩ ⟨n₂, s₂⟩
    simp only [keyLt]
    rcases Nat.lt_trichotomy n₁ n₂ with h | h | h
    · exact Or.inl (Or.inl h)
    · subst h
      rcases charsLt_trichot s₁.data s₂.data with h | h | h
      · exact Or.inl (Or.inr ⟨rfl, h⟩)
      · have hs : s₁ = s₂ := by
          cases s₁; cases s₂
          exact congrArg String.mk (by simpa using h)
        subst hs
        exact Or.inr (Or.inl rfl)
      · exact Or.inr (Or.inr (Or.inr ⟨rfl, h⟩))
    · exact Or.inr (Or.inr (Or.inl h))

/-- Witness for C8's theorem: transitivity applied at concrete keys. -/
theorem sort_key_strict_total_order_witness :
    keyLt (1, "a") (2, "a") ∧ keyLt (2, "a") (3, "a") ∧ keyLt (1, "a") (3, "a") :=
  ⟨by decide, by decide,
    sort_key_strict_total_order.2.1 (1, "a") (2, "a") (3, "a") (by decide) (by decide)⟩

/-- Counterexample to C2: `a.pdf` holding plain text survives a successful
normalization unchanged, yet its byte signature is not `pdf` (the classifier
returns unknown, so the file is skipped, not re-labelled). -/
theorem misnamed_pdf_counterexample :
    normalize_downloaded_files exMisnamed = .ok (exMisnamed, 0) ∧
    extLower "a.pdf" = ".pdf" ∧
    (sniff_kind_and_error "a.pdf" ⟨"hello".data.map Char.toNat, true⟩).1 = none := by
  decide

theorem strData_ext {a b : String} (h : a.data = b.data) : a = b := by
  cases a; cases b; exact congrArg String.mk h

theorem tripleLe_trans {x y z : String × Nat × String}
    (h1 : tripleLe x y) (h2 : tripleLe y z) : tripleLe x z := by
  simp only [tripleLe] at h1 h2 ⊢
  rcases h1 with h1 | ⟨e1, h1⟩ <;> rcases h2 with h2 | ⟨e2, h2⟩
  · exact Or.inl (charsLt_trans h1 h2)
  · exact Or.inl (e2 ▸ h1)
  · exact Or.inl (by rw [e1]; exact h2)
  · refine Or.inr ⟨e1.trans e2, ?_⟩
    rcases h1 with h1 | ⟨f1, h1⟩ <;> rcases h2 with h2 | ⟨f2, h2⟩
    · exact Or.inl (lt_trans h1 h2)
    · exact Or.inl (f2 ▸ h1)
    · exact Or.inl (by rw [f1]; exact h2)
    · exact Or.inr ⟨f1.trans f2, charsLe_trans h1 h2⟩

theorem tripleLe_total (x y : String × Nat × String) : tripleLe x y ∨ tripleLe y x := by
  simp only [tripleLe]
  rcases charsLt_trichot x.1.data y.1.data with h | h | h
  · exact Or.inl (Or.inl h)
  · have e : x.1 = y.1 := strData_ext h
    rcases Nat.lt_trichotomy x.2.1 y.2.1 with h' | h' | h'
    · exact Or.inl (Or.inr ⟨e, Or.inl h'⟩)
    · rcases charsLe_total x.2.2.data y.2.2.data with h'' | h''
      · exact Or.inl (Or.inr ⟨e, Or.inr ⟨h', h''⟩⟩)
      · exact Or.inr (Or.inr ⟨e.symm, Or.inr ⟨h'.symm, h''⟩⟩)
    · exact Or.inr (Or.inr ⟨e.symm, Or.inl h'⟩)
  · exact Or.inr (Or.inl h)

theorem entryLeB_trans (a b c : Entry) (h1 : entryLeB a b = true)
    (h2 : entryLeB b c = true) : entryLeB a c = true := by
  simp only [entryLeB, decide_eq_true_eq] at h1 h2 ⊢
  exact tripleLe_trans h1 h2

theorem entryLeB_total (a b : Entry) : entryLeB a b = true ∨ entryLeB b a = true := by
  simp only [entryLeB, decide_eq_true_eq]
  exact tripleLe_total _ _

/-! ### The stable insertion sort: permutation and sortedness -/

theorem insertSorted_perm (le : α → α → Bool) (x : α) (l : List α) :
    List.Perm (insertSorted le x l) (x :: l) := by
  induction l with
  | nil => exact List.Perm.refl _
  | cons y ys ih =>
    simp only [insertSorted]
    by_cases h : le y x = true
    · rw [if_pos h]
      exact (ih.cons y).trans (List.Perm.swap x y ys)
    · rw [if_neg h]

theorem pySorted_perm (le : α → α → Bool) (l : List α) :
    List.Perm (pySorted le l) l := by
  suffices h : ∀ (l acc : List α),
      List.Perm (l.foldl (fun acc x => insertSorted le x acc) acc) (acc ++ l) by
    simpa [pySorted] using h l []
  intro l
  induction l with
  | nil => intro acc; simp
  | cons x xs ih =>
    intro acc
    simp only [List.foldl_cons]
    have h1 := ih (insertSorted le x acc)
    have h2 : List.Perm (insertSorted le x acc ++ xs) ((x :: acc) ++ xs) :=
      (insertSorted_perm le x acc).append_right xs
    have h3 : List.Perm ((x :: acc) ++ xs) (acc ++ x :: xs) :=
      List.perm_middle.symm
    exact (h1.trans h2).trans h3

theorem insertSorted_pairwise (le : α → α → Bool)
    (htrans : ∀ a b c, le a b = true → le b c = true → le a c = true)
    (htot : ∀ a b, le a b = true ∨ le b a = true)
    (x : α) (l : List α) (hl : l.Pairwise (fun a b => le a b = true)) :
    (insertSorted le x l).Pairwise (fun a b => le a b = true) := by
  induction l with
  | nil => simp [insertSorted]
  | cons y ys ih =>
    rcases List.pairwise_cons.1 hl with ⟨hy, hys⟩
    simp only [insertSorted]
    by_cases h : le y x = true
    · rw [if_pos h]
      refine List.pairwise_cons.2 ⟨?_, ih hys⟩
      intro z hz
      have hz' : z = x ∨ z ∈ ys := by
        simpa using (insertSorted_perm le x ys).mem_iff.1 hz
      rcases hz' with rfl | hz'
      · exact h
      · exact hy z hz'
    · rw [if_neg h]
      have hxy : le x y = true := (htot x y).resolve_right (by simpa using h)
      refine List.pairwise_cons.2 ⟨?_, hl⟩
      intro z hz
      rcases List.mem_cons.1 hz with rfl | hz'
      · exact hxy
      · exact htrans x y z hxy (hy z hz')

theorem pySorted_pairwise (le : α → α → Bool)
    (htrans : ∀ a b c, le a b = true → le b c = true → le a c = true)
    (htot : ∀ a b, le a b = true ∨ le b a = true) (l : List α) :
    (pySorted le l).Pairwise (fun a b => le a b = true) := by
  suffices h : ∀ (l acc : List α), acc.Pairwise (fun a b => le a b = true) →
      (l.foldl (fun acc x => insertSorted le x acc) acc).Pairwise
        (fun a b => le a b = true) by
    exact h l [] (by simp)
  intro l
  induction l with
  | nil => intro acc h; simpa using h
  | cons x xs ih =>
    intro acc h
    exact ih _ (insertSorted_pairwise le htrans htot x acc h)

/-! ### Bounds for the numeric sort-key component -/

theorem decimalVal_foldl_lt (ds : List Char) (hds : ∀ c ∈ ds, isPyDigit c = true) :
    ∀ a : Nat, ds.foldl (fun x c => 10 * x + (c.toNat - 48)) a < (a + 1) * 10 ^ ds.length := by
  induction ds with
  | nil => intro a; simp [Nat.lt_succ_self a]
  | cons c cs ih =>
    intro a
    have hc : c.toNat - 48 ≤ 9 := by
      have h := hds c (List.mem_cons_self c cs)
      simp only [isPyDigit, Bool.and_eq_true, decide_eq_true_eq] at h
      omega
    have step := ih (fun d hd => hds d (List.mem_cons_of_mem c hd)) (10 * a + (c.toNat - 48))
    simp only [List.foldl_cons, List.length_cons]
    calc cs.foldl (fun x c => 10 * x + (c.toNat - 48)) (10 * a + (c.toNat - 48))
        < (10 * a + (c.toNat - 48) + 1) * 10 ^ cs.length := step
      _ ≤ ((a + 1) * 10) * 10 ^ cs.length := by
          have : 10 * a + (c.toNat - 48) + 1 ≤ (a + 1) * 10 := by omega
          exact Nat.mul_le_mul_right _ this
      _ = (a + 1) * 10 ^ (cs.length + 1) := by ring

theorem decimalVal_le_9999 (ds : List Char) (hds : ∀ c ∈ ds, isPyDigit c = true)
    (hlen : ds.length ≤ 4) : decimalVal ds ≤ 9999 := by
  have h := decimalVal_foldl_lt ds hds 0
  have hpow : 10 ^ ds.length ≤ 10 ^ 4 := Nat.pow_le_pow_right (by omega) hlen
  simp only [decimalVal]
  omega

/-- C7.  The sort key is the pair (value of the leading 1-4 digit run when
the regex matches, else the sentinel `10**9`, which exceeds every 4-digit
number; case-folded title); unnumbered titles sort after every numbered one
under `keyLt`; `collect_entries` returns its entries sorted by
`(str(rel_dir).lower(), sort_key)`; and `"2 Giriş"` precedes `"10 Giriş"`. -/
theorem sort_key_and_order_spec :
    (∀ title : String,
      (1 ≤ ((title.data.dropWhile isPyWs).takeWhile isPyDigit).length ∧
       ((title.data.dropWhile isPyWs).takeWhile isPyDigit).length ≤ 4 ∧
       ((title.data.dropWhile isPyWs).drop
          ((title.data.dropWhile isPyWs).takeWhile isPyDigit).length).head?.all
            (fun c => !isPyWord c) = true →
        leading_number_key title =
            (decimalVal ((title.data.dropWhile isPyWs).takeWhile isPyDigit), strLower title) ∧
          (leading_number_key title).1 ≤ 9999) ∧
      (¬ (1 ≤ ((title.data.dropWhile isPyWs).takeWhile isPyDigit).length ∧
          ((title.data.dropWhile isPyWs).takeWhile isPyDigit).length ≤ 4 ∧
          ((title.data.dropWhile isPyWs).drop
             ((title.data.dropWhile isPyWs).takeWhile isPyDigit).length).head?.all
               (fun c => !isPyWord c) = true) →
        leading_number_key title = (10 ^ 9, strLower title))) ∧
    (∀ t u : String, (leading_number_key t).1 ≤ 9999 →
      (leading_number_key u).1 = 10 ^ 9 →
      keyLt (leading_number_key t) (leading_number_key u)) ∧
    (∀ fs : FS, (collect_entries fs).Pairwise (fun a b => entryLeB a b = true)) ∧
    keyLt (leading_number_key "2 Giriş") (leading_number_key "10 Giriş") := by
  refine ⟨?_, ?_, ?_, by decide⟩
  · intro title
    constructor
    · intro h
      have hdig : ∀ c ∈ (title.data.dropWhile isPyWs).takeWhile isPyDigit,
          isPyDigit c = true := fun c hc => List.mem_takeWhile_imp hc
      have heq : leading_number_key title =
          (decimalVal ((title.data.dropWhile isPyWs).takeWhile isPyDigit),
            strLower title) := by
        simp only [leading_number_key]
        split
        · rfl
        · next hcontra =>
            refine absurd ?_ hcontra
            simp only [Bool.and_eq_true, decide_eq_true_eq]
            exact ⟨⟨h.1, h.2.1⟩, h.2.2⟩
      refine ⟨heq, ?_⟩
      rw [heq]
      exact decimalVal_le_9999 _ hdig h.2.1
    · intro h
      simp only [leading_number_key]
      split
      · next hc =>
          exfalso
          simp only [Bool.and_eq_true, decide_eq_true_eq] at hc
          exact h ⟨hc.1.1, hc.1.2, hc.2⟩
      · rfl
  · intro t u ht hu
    have hpow : (10 : Nat) ^ 9 = 1000000000 := by norm_num
    refine Or.inl ?_
    rw [hu, hpow]
    omega
  · intro fs
    exact pySorted_pairwise entryLeB entryLeB_trans entryLeB_total _

/-- Witness for C7: the characterization and the numbered-before-unnumbered
ordering applied at the concrete titles `"03 Lecture"` and `"Intro"`. -/
theorem sort_key_and_order_spec_witness :
    (leading_number_key "03 Lecture" =
        (decimalVal (("03 Lecture".data.dropWhile isPyWs).takeWhile isPyDigit),
          strLower "03 Lecture") ∧
      (leading_number_key "03 Lecture").1 ≤ 9999) ∧
    keyLt (leading_number_key "03 Lecture") (leading_number_key "Intro") :=
  ⟨(sort_key_and_order_spec.1 "03 Lecture").1 (by decide),
    sort_key_and_order_spec.2.1 "03 Lecture" "Intro" (by decide) (by decide)⟩

/-- C9.  Whenever a run fails, the last manifest write has status `failed`
with the failure's error and current entry, and the failure artifact records
the error and the bounded log tail; a failure in the sync phase yields the
artifact with `current_entry = none` and an empty entry list; a failure
while building an entry records the full collected list and that entry. -/
theorem main_failure_capture (cfg : RunCfg) :
    (∀ fa : FailureArtifact, (mainModel cfg).failure = some fa →
      (∃ es : List Entry,
        (mainModel cfg).manifests.getLast? =
          some (write_manifest es "failed" (some fa.error) fa.currentEntry)) ∧
      fa.logTail = tail_file cfg.log cfg.tailLines ∧
      fa.logTailLines = cfg.tailLines) ∧
    (∀ e : String, syncPhase cfg = .error e →
      mainModel cfg = {
        manifests := [write_manifest [] "failed" (some e) none],
        failure := some ⟨e, none, cfg.tailLines, tail_file cfg.log cfg.tailLines⟩,
        ok := false }) ∧
    (∀ fsUsed : FS, syncPhase cfg = .ok fsUsed → cfg.doBuild = true →
      ∀ (e : Entry) (err : String),
        (collect_entries fsUsed).findSome?
            (fun x => (cfg.buildResult x).map (fun m => (x, m))) = some (e, err) →
        mainModel cfg = {
          manifests := [
            write_manifest (collect_entries fsUsed) "collected" none none,
            write_manifest (collect_entries fsUsed) "failed" (some err) (some e)],
          failure := some ⟨err, some e, cfg.tailLines, tail_file cfg.log cfg.tailLines⟩,
          ok := false }) := by
  rcases hsync : syncPhase cfg with e | fsUsed
  · have hm : mainModel cfg = {
        manifests := [write_manifest [] "failed" (some e) none],
        failure := some ⟨e, none, cfg.tailLines, tail_file cfg.log cfg.tailLines⟩,
        ok := false } := by
      simp only [mainModel, hsync]
      rfl
    refine ⟨?_, ?_, ?_⟩
    · intro fa hfa
      rw [hm] at hfa
      simp only [Option.some.injEq] at hfa
      subst hfa
      rw [hm]
      exact ⟨⟨[], rfl⟩, rfl, rfl⟩
    · intro e' he'
      cases he'
      exact hm
    · intro fs hfs
      exact absurd hfs (by simp)
  · by_cases hb : cfg.doBuild = true
    · rcases hfind : (collect_entries fsUsed).findSome?
          (fun x => (cfg.buildResult x).map (fun m => (x, m))) with _ | p
      · rcases hidx : cfg.indexResult with _ | err
        · have hm : mainModel cfg = {
              manifests := [
                write_manifest (collect_entries fsUsed) "collected" none none,
                write_manifest (collect_entries fsUsed) "success" none none],
              failure := none, ok := true } := by
            simp only [mainModel, hsync, hb, if_true, hfind, hidx]
          refine ⟨?_, ?_, ?_⟩
          · intro fa hfa
            rw [hm] at hfa
            exact absurd hfa (by simp)
          · intro e' he'
            exact absurd he' (by simp)
          · intro fs' hfs' hb' e err hfind'
            cases hfs'
            rw [hfind] at hfind'
            exact absurd hfind' (by simp)
        · have hm : mainModel cfg = {
              manifests := [
                write_manifest (collect_entries fsUsed) "collected" none none,
                write_manifest (collect_entries fsUsed) "failed" (some err)
                  (collect_entries fsUsed).getLast?],
              failure := some ⟨err, (collect_entries fsUsed).getLast?, cfg.tailLines, tail_file cfg.log cfg.tailLines⟩,
              ok := false } := by
            simp only [mainModel, hsync, hb, if_true, hfind, hidx]
            rfl
          refine ⟨?_, ?_, ?_⟩
          · intro fa hfa
            rw [hm] at hfa
            simp only [Option.some.injEq] at hfa
            subst hfa
            rw [hm]
            exact ⟨⟨collect_entries fsUsed, rfl⟩, rfl, rfl⟩
          · intro e' he'
            exact absurd he' (by simp)
          · intro fs' hfs' hb' e err' hfind'
            cases hfs'
            rw [hfind] at hfind'
            exact absurd hfind' (by simp)
      · obtain ⟨e, err⟩ := p
        have hm : mainModel cfg = {
            manifests := [
              write_manifest (collect_entries fsUsed) "collected" none none,
              write_manifest (collect_entries fsUsed) "failed" (some err) (some e)],
            failure := some ⟨err, some e, cfg.tailLines, tail_file cfg.log cfg.tailLines⟩,
            ok := false } := by
          simp only [mainModel, hsync, hb, if_true, hfind]
          rfl
        refine ⟨?_, ?_, ?_⟩
        · intro fa hfa
          rw [hm] at hfa
          simp only [Option.some.injEq] at hfa
          subst hfa
          rw [hm]
          exact ⟨⟨collect_entries fsUsed, rfl⟩, rfl, rfl⟩
        · intro e' he'
          exact absurd he' (by simp)
        · intro fs' hfs' hb' e' err' hfind'
          cases hfs'
          rw [hfind] at hfind'
          simp only [Option.some.injEq, Prod.mk.injEq] at hfind'
          obtain ⟨rfl, rfl⟩ := hfind'
          exact hm
    · have hm : mainModel cfg = { manifests := [], failure := none, ok := true } := by
        simp [mainModel, hsync, hb]
      refine ⟨?_, ?_, ?_⟩
      · intro fa hfa
        rw [hm] at hfa
        exact absurd hfa (by simp)
      · intro e' he'
        exact absurd he' (by simp)
      · intro fs' hfs' hb'
        exact absurd hb' hb

/-- Witness for C9: the concrete run `exSyncFailCfg` (sync + build requested,
empty env URL) fails in the sync phase and still leaves both artifacts, with
a null current entry. -/
theorem main_failure_capture_witness :
    mainModel exSyncFailCfg = {
      manifests := [write_manifest [] "failed"
        (some "GDRIVE_FOLDER_URL env is empty.") none],
      failure := some ⟨"GDRIVE_FOLDER_URL env is empty.", none, 2, tail_file ["l1", "l2", "l3"] 2⟩,
      ok := false } :=
  (main_failure_capture exSyncFailCfg).2.1 "GDRIVE_FOLDER_URL env is empty." (by rfl)

/-! ### Decimal representations: `Nat.repr` is injective and non-empty -/

theorem toDigitsCore_acc (b : Nat) :
    ∀ (f n : Nat) (acc : List Char),
      Nat.toDigitsCore b f n acc = Nat.toDigitsCore b f n [] ++ acc := by
  intro f
  induction f with
  | zero => intro n acc; rfl
  | succ f ih =>
    intro n acc
    simp only [Nat.toDigitsCore]
    by_cases h : n / b = 0
    · rw [if_pos h, if_pos h]
      rfl
    · rw [if_neg h, if_neg h, ih (n / b) [Nat.digitChar (n % b)],
        ih (n / b) (Nat.digitChar (n % b) :: acc)]
      simp

theorem toDigitsCore_ne_nil (f n : Nat) :
    Nat.toDigitsCore 10 (f + 1) n [] ≠ [] := by
  simp only [Nat.toDigitsCore]
  by_cases h : n / 10 = 0
  · rw [if_pos h]
    simp
  · rw [if_neg h, toDigitsCore_acc 10 f (n / 10) [Nat.digitChar (n % 10)]]
    simp

theorem digitChar_toNat {m : Nat} (h : m < 10) :
    (Nat.digitChar m).toNat = m + 48 := by
  interval_cases m <;> decide

theorem parse_toDigitsCore :
    ∀ n f, n < f →
      (Nat.toDigitsCore 10 f n []).foldl (fun a c => 10 * a + (c.toNat - 48)) 0 = n := by
  intro n
  induction n using Nat.strong_induction_on with
  | _ n ih =>
    intro f hf
    cases f with
    | zero => omega
    | succ g =>
      simp only [Nat.toDigitsCore]
      by_cases h : n / 10 = 0
      · rw [if_pos h]
        have hn : n < 10 := by omega
        simp only [List.foldl_cons, List.foldl_nil]
        rw [digitChar_toNat (Nat.mod_lt n (by omega))]
        omega
      · rw [if_neg h, toDigitsCore_acc 10 g (n / 10) [Nat.digitChar (n % 10)],
          List.foldl_append]
        have h10 : 10 ≤ n := by omega
        have hrec := ih (n / 10) (by omega) g (by omega)
        rw [hrec]
        simp only [List.foldl_cons, List.foldl_nil]
        rw [digitChar_toNat (Nat.mod_lt n (by omega))]
        omega

theorem natRepr_injective {m n : Nat} (h : Nat.repr m = Nat.repr n) : m = n := by
  have hd : Nat.toDigits 10 m = Nat.toDigits 10 n := by
    have := congrArg String.data h
    simpa [Nat.repr, List.asString] using this
  have hm := parse_toDigitsCore m (m + 1) (Nat.lt_succ_self m)
  have hn := parse_toDigitsCore n (n + 1) (Nat.lt_succ_self n)
  simp only [Nat.toDigits] at hd
  rw [hd] at hm
  rw [hm] at hn
  exact hn

theorem natRepr_ne_nil (n : Nat) : (Nat.repr n).data ≠ [] := by
  simp only [Nat.repr, Nat.toDigits, List.asString]
  exact toDigitsCore_ne_nil n n

theorem expectedStem_inj (s : String) {j k : Nat} (hjk : j ≠ k) :
    expectedStem s j ≠ expectedStem s k := by
  have key : ∀ a : Nat, 1 ≤ a → s ≠ s ++ "-" ++ Nat.repr (a + 1) := by
    intro a _ he
    have hlen := congrArg (fun t : String => t.data.length) he
    simp only [String.data_append, List.length_append] at hlen
    have hrl : 1 ≤ (Nat.repr (a + 1)).data.length :=
      List.length_pos.2 (natRepr_ne_nil (a + 1))
    have hdash : ("-" : String).data.length = 1 := rfl
    omega
  intro he
  simp only [expectedStem] at he
  by_cases hj : j = 0 <;> by_cases hk : k = 0
  · exact hjk (hj.trans hk.symm)
  · rw [if_pos hj, if_neg hk] at he
    exact key k (by omega) he
  · rw [if_neg hj, if_pos hk] at he
    exact key j (by omega) he.symm
  · rw [if_neg hj, if_neg hk] at he
    have hd := congrArg String.data he
    simp only [String.data_append] at hd
    have h1 : (Nat.repr (j + 1)).data = (Nat.repr (k + 1)).data := by
      rw [List.append_assoc, List.append_assoc] at hd
      have := List.append_cancel_left hd
      exact List.append_cancel_left this
    have hr := natRepr_injective (strData_ext h1)
    exact hjk (by omega)

/-! ### Association-list lemmas for the slug-count dictionary -/

theorem bucketGet_cons (x : (List String × String) × Nat) (l : Used)
    (k : List String × String) :
    bucketGet (x :: l) k = if x.1 = k then some x.2 else bucketGet l k := by
  simp only [bucketGet, List.find?_cons]
  by_cases h : x.1 = k
  · simp [h]
  · simp [h]

theorem bucketGet_map_set (xs : Used) (k : List String × String) (v : Nat) :
    bucketGet (xs.map (fun e => if e.1 = k then (k, v) else e)) k =
      if xs.any (fun e => e.1 = k) then some v else none := by
  induction xs with
  | nil => simp [bucketGet]
  | cons x l ih =>
    simp only [List.map_cons, List.any_cons]
    by_cases h : x.1 = k
    · rw [if_pos h, bucketGet_cons]
      simp [h]
    · rw [if_neg h, bucketGet_cons, if_neg h, ih]
      simp only [decide_eq_false h, Bool.false_or]

theorem bucketGet_map_set_other (xs : Used) (k k' : List String × String) (v : Nat)
    (hkk : k' ≠ k) :
    bucketGet (xs.map (fun e => if e.1 = k then (k, v) else e)) k' = bucketGet xs k' := by
  induction xs with
  | nil => rfl
  | cons x l ih =>
    simp only [List.map_cons]
    by_cases h : x.1 = k
    · rw [if_pos h, bucketGet_cons, bucketGet_cons, ih,
        if_neg (fun hc : (k, v).1 = k' => hkk ((hc : k = k')).symm),
        if_neg (fun hc : x.1 = k' => hkk (h ▸ hc : k = k').symm)]
    · rw [if_neg h, bucketGet_cons, bucketGet_cons, ih]

theorem bucketGet_set_same (used : Used) (k : List String × String) (v : Nat) :
    bucketGet (bucketSet used k v) k = some v := by
  simp only [bucketSet]
  by_cases h : used.any (fun e => e.1 = k) = true
  · rw [if_pos h, bucketGet_map_set, if_pos h]
  · rw [if_neg h, bucketGet_cons, if_pos rfl]

theorem bucketGet_set_other (used : Used) (k k' : List String × String) (v : Nat)
    (hkk : k' ≠ k) : bucketGet (bucketSet used k v) k' = bucketGet used k' := by
  simp only [bucketSet]
  by_cases h : used.any (fun e => e.1 = k) = true
  · rw [if_pos h]
    exact bucketGet_map_set_other used k k' v hkk
  · rw [if_neg h, bucketGet_cons, if_neg (fun hc : (k, v).1 = k' => hkk ((hc : k = k')).symm)]

/-! ### Characterizing one `collect_entries` loop step -/

theorem collectStep_not_doc (acc : List Entry × Used) (p : String)
    (h : ¬(extLower p = ".docx" ∨ extLower p = ".pdf")) : collectStep acc p = acc := by
  simp only [collectStep]
  rw [if_neg h]

theorem collectStep_doc (acc : List Entry × Used) (p : String)
    (h : extLower p = ".docx" ∨ extLower p = ".pdf") :
    ∃ z : Entry,
      collectStep acc p =
        (acc.1 ++ [z],
          (disambiguate_slug acc.2 (safe_rel_dir (parentParts p))
            (slugify (stemOf p))).2) ∧
      z.relDir = safe_rel_dir (parentParts p) ∧
      z.relStem =
        (disambiguate_slug acc.2 (safe_rel_dir (parentParts p))
          (slugify (stemOf p))).1 ∧
      z.src = p := by
  simp only [collectStep]
  rw [if_pos h]
  refine ⟨_, rfl, ?_, ?_, ?_⟩ <;>
    (by_cases hdx : extLower p = ".docx")
  · rw [if_pos hdx]
  · rw [if_neg hdx]
  · rw [if_pos hdx]
  · rw [if_neg hdx]
  · rw [if_pos hdx]
  · rw [if_neg hdx]

set_option maxHeartbeats 1000000 in
/-- Invariant of the `collect_entries` fold: the slug dictionary holds, for
every (directory, desired stem) key, the number of entries already emitted
with that key; their stems are `s`, `s-2`, …; and the emitted list is
pairwise clash-free. -/
theorem collect_fold_pairwise :
    ∀ (ps : List String) (acc : List Entry) (used : Used),
      (∀ dir s,
        bucketGet used (dir, s) =
          if (acc.filter (fun e => decide (e.relDir = dir ∧ desiredOf e = s))).length = 0
          then none
          else some
            (acc.filter (fun e => decide (e.relDir = dir ∧ desiredOf e = s))).length) →
      (∀ dir s,
        (acc.filter (fun e => decide (e.relDir = dir ∧ desiredOf e = s))).map
            Entry.relStem =
          (List.range
            (acc.filter
              (fun e => decide (e.relDir = dir ∧ desiredOf e = s))).length).map
            (expectedStem s)) →
      acc.Pairwise stemClashFree →
      (ps.foldl collectStep (acc, used)).1.Pairwise stemClashFree := by
  intro ps
  induction ps with
  | nil =>
    intro acc used h1 h2 h3
    simpa using h3
  | cons p ps ih =>
    intro acc used h1 h2 h3
    simp only [List.foldl_cons]
    by_cases hext : extLower p = ".docx" ∨ extLower p = ".pdf"
    · obtain ⟨z, hstep, hzdir, hzstem, hzsrc⟩ := collectStep_doc (acc, used) p hext
      have hzdes : desiredOf z = slugify (stemOf p) := by
        rw [desiredOf, hzsrc]
      generalize hRD : safe_rel_dir (parentParts p) = rd at hstep hzdir hzstem
      generalize hDS : slugify (stemOf p) = ds at hstep hzstem hzdes
      rw [hstep]
      rcases hbk : bucketGet used (rd, ds) with _ | c
      · have hdsb : disambiguate_slug used rd ds =
            (ds, bucketSet used (rd, ds) 1) := by
          simp [disambiguate_slug, hbk]
        have hcnt : (acc.filter
            (fun e => decide (e.relDir = rd ∧ desiredOf e = ds))).length = 0 := by
          have h := h1 rd ds
          rw [hbk] at h
          by_contra hne
          rw [if_neg hne] at h
          exact Option.noConfusion h
        have hfil : acc.filter (fun e => decide (e.relDir = rd ∧ desiredOf e = ds)) = [] :=
          List.length_eq_zero.1 hcnt
        have hzstem2 : z.relStem = ds := by rw [hzstem, hdsb]
        have hpz : (fun e : Entry => decide (e.relDir = rd ∧ desiredOf e = ds)) z = true := by
          simp only [decide_eq_true_eq]
          exact ⟨hzdir, hzdes⟩
        have hfz : List.filter (fun e => decide (e.relDir = rd ∧ desiredOf e = ds)) [z]
            = [z] := by
          rw [@List.filter_cons_of_pos Entry
            (fun e => decide (e.relDir = rd ∧ desiredOf e = ds)) z [] hpz,
            List.filter_nil]
        rw [hdsb]
        refine ih (acc ++ [z]) _ ?_ ?_ ?_
        · intro dir s
          by_cases hkey : (dir, s) = (rd, ds)
          · rw [Prod.mk.injEq] at hkey
            obtain ⟨rfl, rfl⟩ := hkey
            rw [bucketGet_set_same, List.filter_append, hfil, hfz]
            rfl
          · have hzmatch : ¬(z.relDir = dir ∧ desiredOf z = s) := by
              rintro ⟨ha, hb⟩
              exact hkey (by rw [← ha, ← hb, hzdir, hzdes])
            have hpz0 : ¬ (fun e : Entry =>
                decide (e.relDir = dir ∧ desiredOf e = s)) z = true := by
              simp only [decide_eq_true_eq]
              exact hzmatch
            have hfz0 : List.filter
                (fun e => decide (e.relDir = dir ∧ desiredOf e = s)) [z] = [] := by
              rw [@List.filter_cons_of_neg Entry
                (fun e => decide (e.relDir = dir ∧ desiredOf e = s)) z [] hpz0,
                List.filter_nil]
            rw [bucketGet_set_other used _ _ 1 hkey, h1 dir s, List.filter_append,
              hfz0, List.append_nil]
        · intro dir s
          by_cases hkey : (dir, s) = (rd, ds)
          · rw [Prod.mk.injEq] at hkey
            obtain ⟨rfl, rfl⟩ := hkey
            rw [List.filter_append, hfil, hfz, List.nil_append, List.map_cons,
              List.map_nil, hzstem2]
            simp [expectedStem, List.range_succ]
          · have hzmatch : ¬(z.relDir = dir ∧ desiredOf z = s) := by
              rintro ⟨ha, hb⟩
              exact hkey (by rw [← ha, ← hb, hzdir, hzdes])
            have hpz0 : ¬ (fun e : Entry =>
                decide (e.relDir = dir ∧ desiredOf e = s)) z = true := by
              simp only [decide_eq_true_eq]
              exact hzmatch
            have hfz0 : List.filter
                (fun e => decide (e.relDir = dir ∧ desiredOf e = s)) [z] = [] := by
              rw [@List.filter_cons_of_neg Entry
                (fun e => decide (e.relDir = dir ∧ desiredOf e = s)) z [] hpz0,
                List.filter_nil]
            rw [List.filter_append, hfz0, List.append_nil]
            exact h2 dir s
        · rw [List.pairwise_append]
          refine ⟨h3, by simp, ?_⟩
          intro a ha b hb
          obtain rfl : b = z := by simpa using hb
          intro hdir hdes
          have hamem : a ∈ acc.filter
              (fun e => decide (e.relDir = rd ∧ desiredOf e = ds)) := by
            rw [List.mem_filter]
            refine ⟨ha, ?_⟩
            rw [decide_eq_true_eq]
            exact ⟨hdir.trans hzdir, hdes.trans hzdes⟩
          rw [hfil] at hamem
          exact absurd hamem (List.not_mem_nil a)
      · have hcnt : (acc.filter
            (fun e => decide (e.relDir = rd ∧ desiredOf e = ds))).length = c := by
          have h := h1 rd ds
          rw [hbk] at h
          by_cases hc0 : (acc.filter
              (fun e => decide (e.relDir = rd ∧ desiredOf e = ds))).length = 0
          · rw [if_pos hc0] at h
            exact Option.noConfusion h
          · rw [if_neg hc0] at h
            exact (Option.some.inj h).symm
        have hcpos : 0 < c := by
          rcases Nat.eq_zero_or_pos c with rfl | hpos
          · have h := h1 rd ds
            rw [hbk, if_pos hcnt] at h
            exact Option.noConfusion h
          · exact hpos
        have hdsb : disambiguate_slug used rd ds =
            (ds ++ "-" ++ Nat.repr (c + 1), bucketSet used (rd, ds) (c + 1)) := by
          simp [disambiguate_slug, hbk]
        have hzstem2 : z.relStem = expectedStem ds c := by
          rw [hzstem, hdsb]
          simp only [expectedStem]
          rw [if_neg (by omega)]
        have hpz : (fun e : Entry => decide (e.relDir = rd ∧ desiredOf e = ds)) z = true := by
          simp only [decide_eq_true_eq]
          exact ⟨hzdir, hzdes⟩
        have hfz : List.filter (fun e => decide (e.relDir = rd ∧ desiredOf e = ds)) [z]
            = [z] := by
          rw [@List.filter_cons_of_pos Entry
            (fun e => decide (e.relDir = rd ∧ desiredOf e = ds)) z [] hpz,
            List.filter_nil]
        rw [hdsb]
        refine ih (acc ++ [z]) _ ?_ ?_ ?_
        · intro dir s
          by_cases hkey : (dir, s) = (rd, ds)
          · rw [Prod.mk.injEq] at hkey
            obtain ⟨rfl, rfl⟩ := hkey
            rw [bucketGet_set_same, List.filter_append, hfz, List.length_append,
              hcnt, List.length_singleton]
            rw [if_neg (by omega)]
          · have hzmatch : ¬(z.relDir = dir ∧ desiredOf z = s) := by
              rintro ⟨ha, hb⟩
              exact hkey (by rw [← ha, ← hb, hzdir, hzdes])
            have hpz0 : ¬ (fun e : Entry =>
                decide (e.relDir = dir ∧ desiredOf e = s)) z = true := by
              simp only [decide_eq_true_eq]
              exact hzmatch
            have hfz0 : List.filter
                (fun e => decide (e.relDir = dir ∧ desiredOf e = s)) [z] = [] := by
              rw [@List.filter_cons_of_neg Entry
                (fun e => decide (e.relDir = dir ∧ desiredOf e = s)) z [] hpz0,
                List.filter_nil]
            rw [bucketGet_set_other used _ _ _ hkey, h1 dir s, List.filter_append,
              hfz0, List.append_nil]
        · intro dir s
          by_cases hkey : (dir, s) = (rd, ds)
          · rw [Prod.mk.injEq] at hkey
            obtain ⟨rfl, rfl⟩ := hkey
            rw [List.filter_append, hfz, List.map_append, h2 dir s, hcnt,
              List.length_append, hcnt, List.length_singleton, List.range_succ,
              List.map_append]
            rw [List.map_cons, List.map_nil, hzstem2]
            simp
          · have hzmatch : ¬(z.relDir = dir ∧ desiredOf z = s) := by
              rintro ⟨ha, hb⟩
              exact hkey (by rw [← ha, ← hb, hzdir, hzdes])
            have hpz0 : ¬ (fun e : Entry =>
                decide (e.relDir = dir ∧ desiredOf e = s)) z = true := by
              simp only [decide_eq_true_eq]
              exact hzmatch
            have hfz0 : List.filter
                (fun e => decide (e.relDir = dir ∧ desiredOf e = s)) [z] = [] := by
              rw [@List.filter_cons_of_neg Entry
                (fun e => decide (e.relDir = dir ∧ desiredOf e = s)) z [] hpz0,
                List.filter_nil]
            rw [List.filter_append, hfz0, List.append_nil]
            exact h2 dir s
        · rw [List.pairwise_append]
          refine ⟨h3, by simp, ?_⟩
          intro a ha b hb
          obtain rfl : b = z := by simpa using hb
          intro hdir hdes
          have hamem : a.relStem ∈ (acc.filter
              (fun e => decide (e.relDir = rd ∧ desiredOf e = ds))).map Entry.relStem := by
            refine List.mem_map_of_mem Entry.relStem ?_
            rw [List.mem_filter]
            refine ⟨ha, ?_⟩
            rw [decide_eq_true_eq]
            exact ⟨hdir.trans hzdir, hdes.trans hzdes⟩
          rw [h2 rd ds, hcnt] at hamem
          obtain ⟨k, hk, hks⟩ := List.mem_map.1 hamem
          have hkc : k < c := List.mem_range.1 hk
          rw [hzstem2, ← hks]
          exact expectedStem_inj ds (Nat.ne_of_lt hkc)
    · rw [collectStep_not_doc (acc, used) p hext]
      exact ih acc used h1 h2 h3

/-- C5 amended.  Within one output directory, entries sharing the same
desired (slugified) stem always receive pairwise distinct resolved stems,
assigned deterministically in first-seen order (`s`, `s-2`, `s-3`, …). -/
theorem same_desired_distinct_stems (fs : FS) :
    (collect_entries fs).Pairwise stemClashFree := by
  have hsymm : Symmetric stemClashFree := by
    intro a b hab h1 h2 he
    exact hab h1.symm h2.symm he.symm
  have hperm := pySorted_perm entryLeB (((sortedPaths fs).foldl collectStep ([], [])).1)
  simp only [collect_entries]
  refine (hperm.pairwise_iff (fun {a b} hab => hsymm hab)).2 ?_
  exact collect_fold_pairwise (sortedPaths fs) [] []
    (fun dir s => by simp [bucketGet]) (fun dir s => by simp) (by simp)

/-- Counterexample to C5: `note!.docx`, `note-2.docx`, `note.docx` in one
directory resolve to stems `note`, `note-2`, `note-2` — two entries of the
same output directory share a stem, because the suffixed stem chosen for a
collision is never checked against stems that were used directly. -/
theorem stem_clash_counterexample :
    ((collect_entries exStemClash).map (fun e => (e.relDir, e.relStem)) =
      [([], "note-2"), ([], "note-2"), ([], "note")]) ∧
    ¬ ((collect_entries exStemClash).map
        (fun e => (e.relDir, e.relStem))).Nodup := by
  decide

/-! ### Helper lemmas: list scanning, the file-tree operations -/

theorem takeWhile_append_all (q : α → Bool) (l₁ l₂ : List α)
    (h : ∀ a ∈ l₁, q a = true) :
    (l₁ ++ l₂).takeWhile q = l₁ ++ l₂.takeWhile q := by
  induction l₁ with
  | nil => simp
  | cons a t ih =>
    simp only [List.cons_append, List.takeWhile_cons, h a (by simp)]
    rw [ih (fun b hb => h b (by simp [hb]))]
    simp

theorem takeWhile_all (q : α → Bool) (l : List α) (h : ∀ a ∈ l, q a = true) :
    l.takeWhile q = l := by
  have := takeWhile_append_all q l [] h
  simpa using this

theorem dropWhile_head_false (q : α → Bool) :
    ∀ (l : List α) {a : α} {t : List α}, l.dropWhile q = a :: t → q a = false := by
  intro l
  induction l with
  | nil => intro a t h; cases h
  | cons b l' ih =>
    intro a t h
    rw [List.dropWhile_cons] at h
    by_cases hb : q b = true
    · rw [if_pos hb] at h; exact ih h
    · rw [if_neg hb] at h
      injection h with h1 _
      rw [← h1]
      exact Bool.eq_false_iff.2 hb

theorem exceptBind_ok {ε α β : Type} (x : α) (g : α → Except ε β) :
    (Except.ok x >>= g) = g x := rfl

theorem exceptBind_err {ε α β : Type} (e : ε) (g : α → Except ε β) :
    ((Except.error e : Except ε α) >>= g) = Except.error e := rfl

theorem foldlM_cons_eq {ε α β : Type} (f : β → α → Except ε β) (b : β)
    (a : α) (l : List α) :
    List.foldlM f b (a :: l) = f b a >>= fun s => List.foldlM f s l := rfl

theorem foldlM_ok_id (ps : List String) (st : ScanSt)
    (h : ∀ p ∈ ps, normStep st p = Except.ok st) :
    List.foldlM normStep st ps = Except.ok st := by
  induction ps with
  | nil => rfl
  | cons a l ih =>
    rw [foldlM_cons_eq, h a (by simp), exceptBind_ok]
    exact ih (fun p hp => h p (by simp [hp]))

theorem fsHas_iff (fs : FS) (p : String) :
    fsHas fs p = true ↔ p ∈ fs.map Prod.fst := by
  simp [fsHas, List.any_eq_true, List.mem_map]

theorem fsGet_mem {fs : FS} {p : String} {d : FileData}
    (h : fsGet fs p = some d) : (p, d) ∈ fs := by
  unfold fsGet at h
  cases hf : fs.find? (fun e => e.1 = p) with
  | none => rw [hf] at h; cases h
  | some e =>
    rw [hf] at h
    have he : e.2 = d := by simpa using h
    have hp : e.1 = p := by
      have := List.find?_some hf
      simpa using this
    have hmem := List.mem_of_find?_eq_some hf
    have : e = (p, d) := by
      cases e; simp at he hp ⊢; exact ⟨hp, he⟩
    rw [← this]; exact hmem

theorem fsGet_mem_keys {fs : FS} {p : String} {d : FileData}
    (h : fsGet fs p = some d) : p ∈ fs.map Prod.fst := by
  exact List.mem_map.2 ⟨(p, d), fsGet_mem h, rfl⟩

theorem mem_fsGet {fs : FS} (hnd : (fs.map Prod.fst).Nodup) {p : String}
    {d : FileData} (h : (p, d) ∈ fs) : fsGet fs p = some d := by
  induction fs with
  | nil => cases h
  | cons e rest ih =>
    simp only [List.map_cons, List.nodup_cons] at hnd
    rcases List.mem_cons.1 h with he | hr
    · rw [← he]
      simp [fsGet, List.find?_cons]
    · have hne : e.1 ≠ p := by
        intro hep
        exact hnd.1 (hep ▸ List.mem_map.2 ⟨(p, d), hr, rfl⟩)
      simp only [fsGet]
      rw [List.find?_cons_of_neg _ (by simpa using hne)]
      have := ih hnd.2 hr
      simpa [fsGet] using this

theorem fsGet_none_of_not_mem {fs : FS} {p : String}
    (h : p ∉ fs.map Prod.fst) : fsGet fs p = none := by
  induction fs with
  | nil => rfl
  | cons e rest ih =>
    simp only [List.map_cons, List.mem_cons, not_or] at h
    simp only [fsGet]
    rw [List.find?_cons_of_neg _ (by simpa using fun he : e.1 = p => h.1 he.symm)]
    have := ih h.2
    simpa [fsGet] using this

theorem fsGet_fsRename_ne (l : FS) (p tgt q : String)
    (hqp : q ≠ p) (hqt : q ≠ tgt) :
    fsGet (fsRename l p tgt) q = fsGet l q := by
  induction l with
  | nil => rfl
  | cons e rest ih =>
    simp only [fsRename, List.map_cons]
    by_cases hep : e.1 = p
    · rw [if_pos hep]
      simp only [fsGet]
      rw [List.find?_cons_of_neg _ (by simpa using fun h : tgt = q => hqt h.symm),
        List.find?_cons_of_neg _ (by simpa using fun h : e.1 = q => hqp (hep ▸ h).symm)]
      simpa [fsGet, fsRename] using ih
    · rw [if_neg hep]
      simp only [fsGet]
      by_cases heq : e.1 = q
      · rw [List.find?_cons_of_pos _ (by simpa using heq),
          List.find?_cons_of_pos _ (by simpa using heq)]
      · rw [List.find?_cons_of_neg _ (by simpa using heq),
          List.find?_cons_of_neg _ (by simpa using heq)]
        simpa [fsGet, fsRename] using ih

theorem mem_fsRename_elim {l : FS} {p tgt : String} {x : String × FileData}
    (h : x ∈ fsRename l p tgt) :
    (x ∈ l ∧ x.1 ≠ p) ∨ (x.1 = tgt ∧ (p, x.2) ∈ l) := by
  rcases List.mem_map.1 h with ⟨e, he, hx⟩
  by_cases hep : e.1 = p
  · right
    rw [if_pos hep] at hx
    refine ⟨by rw [← hx], ?_⟩
    have : (p, x.2) = e := by
      cases e; simp at hep hx ⊢
      exact ⟨hep.symm, by rw [← hx]⟩
    rw [this]; exact he
  · left
    rw [if_neg hep] at hx
    rw [← hx]; exact ⟨he, hep⟩

theorem mem_fsRename_of_ne {l : FS} {p tgt : String} {x : String × FileData}
    (hx : x ∈ l) (hne : x.1 ≠ p) : x ∈ fsRename l p tgt := by
  have : x = if x.1 = p then (tgt, x.2) else x := by rw [if_neg hne]
  rw [this]
  exact List.mem_map.2 ⟨x, hx, rfl⟩

theorem tgt_mem_fsRename {l : FS} {p tgt : String} {d : FileData}
    (hx : (p, d) ∈ l) : (tgt, d) ∈ fsRename l p tgt := by
  have : (tgt, d) = if (p, d).1 = p then (tgt, (p, d).2) else (p, d) := by
    rw [if_pos rfl]
  rw [this]
  exact List.mem_map.2 ⟨(p, d), hx, rfl⟩

theorem keys_fsRename (l : FS) (p tgt : String) :
    (fsRename l p tgt).map Prod.fst =
      (l.map Prod.fst).map (fun q => if q = p then tgt else q) := by
  simp only [fsRename, List.map_map]
  apply List.map_congr_left
  intro e he
  by_cases hep : e.1 = p
  · simp [Function.comp, hep]
  · simp [Function.comp, hep]

theorem nodup_map_replace {l : List String} (p tgt : String)
    (hnd : l.Nodup) (htgt : tgt ∉ l) :
    (l.map (fun q => if q = p then tgt else q)).Nodup := by
  induction l with
  | nil => simp
  | cons a t ih =>
    simp only [List.nodup_cons] at hnd
    simp only [List.mem_cons, not_or] at htgt
    simp only [List.map_cons, List.nodup_cons]
    refine ⟨?_, ih hnd.2 htgt.2⟩
    intro hmem
    rcases List.mem_map.1 hmem with ⟨b, hb, hbe⟩
    by_cases hap : a = p
    · rw [if_pos hap] at hbe
      by_cases hbp : b = p
      · rw [if_pos hbp] at hbe
        exact hnd.1 (hap ▸ hbp ▸ hb)
      · rw [if_neg hbp] at hbe
        exact htgt.2 (hbe ▸ hb)
    · rw [if_neg hap] at hbe
      by_cases hbp : b = p
      · rw [if_pos hbp] at hbe
        exact htgt.1 hbe
      · rw [if_neg hbp] at hbe
        exact hnd.1 (hbe ▸ hb)

theorem mem_keys_fsRename_elim {l : FS} {p tgt q : String}
    (h : q ∈ (fsRename l p tgt).map Prod.fst) :
    q = tgt ∨ q ∈ l.map Prod.fst := by
  rw [keys_fsRename] at h
  rcases List.mem_map.1 h with ⟨b, hb, hbe⟩
  by_cases hbp : b = p
  · rw [if_pos hbp] at hbe; exact Or.inl hbe.symm
  · rw [if_neg hbp] at hbe; exact Or.inr (hbe ▸ hb)

theorem unique_path_spec {fs : FS} {t tgt : String}
    (h : unique_path fs t = some tgt) :
    fsHas fs tgt = false ∧ (tgt = t ∨ ∃ i, tgt = candidateAt t i) := by
  unfold unique_path at h
  by_cases ht : fsHas fs t = true
  · rw [if_pos ht] at h
    cases hf : (List.range' 1 999).find? (fun i => !fsHas fs (candidateAt t i)) with
    | none => rw [hf] at h; cases h
    | some i =>
      rw [hf] at h
      have htgt : tgt = candidateAt t i := by
        cases h; rfl
      have hfree := List.find?_some hf
      simp only [Bool.not_eq_true'] at hfree
      exact ⟨htgt ▸ hfree, Or.inr ⟨i, htgt⟩⟩
  · rw [if_neg ht] at h
    cases h
    exact ⟨Bool.eq_false_iff.2 ht, Or.inl rfl⟩

/-! ### Helper lemmas: shapes of `nameOf`/`extOf` on rename targets -/

theorem takeWhile_cons_false (q : α → Bool) (a : α) (l : List α)
    (h : q a = false) : (a :: l).takeWhile q = [] := by
  simp [List.takeWhile_cons, h]

theorem shape_data (q : String) (dir m e : List Char)
    (hq : q.data = dir ++ (m ++ '.' :: e))
    (hdir : dir = [] ∨ ∃ d', dir = d' ++ ['/'])
    (hm : ∀ c ∈ m, c ≠ '/') (hmne : m ≠ [])
    (he : ∀ c ∈ e, c ≠ '/' ∧ c ≠ '.') (hene : e ≠ []) :
    (nameOf q).data = m ++ '.' :: e ∧ (extOf q).data = '.' :: e := by
  have hslash : ∀ c ∈ e.reverse ++ '.' :: m.reverse, (decide (c ≠ '/')) = true := by
    intro c hc
    rcases List.mem_append.1 hc with h1 | h1
    · simp [(he c (List.mem_reverse.1 h1)).1]
    · rcases List.mem_cons.1 h1 with rfl | h2
      · simp
      · simp [hm c (List.mem_reverse.1 h2)]
  have hrev : q.data.reverse = (e.reverse ++ '.' :: m.reverse) ++ dir.reverse := by
    rw [hq]
    simp
  have htw : q.data.reverse.takeWhile (fun c => decide (c ≠ '/')) =
      e.reverse ++ '.' :: m.reverse := by
    rw [hrev, takeWhile_append_all _ _ _ hslash]
    rcases hdir with rfl | ⟨d', rfl⟩
    · simp
    · rw [List.reverse_append,
        show (['/'] : List Char).reverse = ['/'] from rfl,
        List.singleton_append, takeWhile_cons_false _ _ _ (by decide),
        List.append_nil]
  have hnd : (nameOf q).data = m ++ '.' :: e := by
    show (q.data.reverse.takeWhile (fun c => decide (c ≠ '/'))).reverse = m ++ '.' :: e
    rw [htw]
    simp
  have hdot : ∀ c ∈ e.reverse, (decide (c ≠ '.')) = true := by
    intro c hc
    simp [(he c (List.mem_reverse.1 hc)).2]
  have htw2 : (nameOf q).data.reverse.takeWhile (fun c => decide (c ≠ '.')) =
      e.reverse := by
    rw [hnd, show (m ++ '.' :: e).reverse = e.reverse ++ '.' :: m.reverse from by simp,
      takeWhile_append_all _ _ _ hdot, takeWhile_cons_false _ _ _ (by decide),
      List.append_nil]
  have hcond : 0 < ((nameOf q).data.reverse.takeWhile (fun c => decide (c ≠ '.'))).length ∧
      ((nameOf q).data.reverse.takeWhile (fun c => decide (c ≠ '.'))).length + 1 <
        (nameOf q).data.length := by
    rw [htw2, hnd]
    have h1 : 0 < e.length := List.length_pos.2 hene
    have h2 : 0 < m.length := List.length_pos.2 hmne
    constructor
    · simpa using h1
    · simp [List.length_append]
      omega
  have hext : (extOf q).data = '.' :: e := by
    show (if 0 < ((nameOf q).data.reverse.takeWhile (fun c => decide (c ≠ '.'))).length ∧
        ((nameOf q).data.reverse.takeWhile (fun c => decide (c ≠ '.'))).length + 1 <
          (nameOf q).data.length then
        (⟨'.' :: ((nameOf q).data.reverse.takeWhile (fun c => decide (c ≠ '.'))).reverse⟩ : String)
      else "").data = '.' :: e
    rw [if_pos hcond]
    show '.' :: ((nameOf q).data.reverse.takeWhile (fun c => decide (c ≠ '.'))).reverse = '.' :: e
    rw [htw2]
    simp
  exact ⟨hnd, hext⟩

theorem nameOf_decomp (p : String) :
    p.data = p.data.take (p.data.length - (nameOf p).data.length) ++ (nameOf p).data ∧
    (∀ c ∈ (nameOf p).data, c ≠ '/') ∧
    (p.data.take (p.data.length - (nameOf p).data.length) = [] ∨
      ∃ d', p.data.take (p.data.length - (nameOf p).data.length) = d' ++ ['/']) := by
  have hnd : (nameOf p).data =
      (p.data.reverse.takeWhile (fun c => decide (c ≠ '/'))).reverse := rfl
  have hsplit : p.data.reverse =
      p.data.reverse.takeWhile (fun c => decide (c ≠ '/')) ++
        p.data.reverse.dropWhile (fun c => decide (c ≠ '/')) :=
    (List.takeWhile_append_dropWhile _ _).symm
  have hpdata : p.data =
      (p.data.reverse.dropWhile (fun c => decide (c ≠ '/'))).reverse ++ (nameOf p).data := by
    rw [hnd, ← List.reverse_append, ← hsplit, List.reverse_reverse]
  have hlen : p.data.length - (nameOf p).data.length =
      (p.data.reverse.dropWhile (fun c => decide (c ≠ '/'))).reverse.length := by
    conv_lhs => rw [hpdata]
    rw [List.length_append, Nat.add_sub_cancel]
  have htake : p.data.take (p.data.length - (nameOf p).data.length) =
      (p.data.reverse.dropWhile (fun c => decide (c ≠ '/'))).reverse := by
    generalize hD : (p.data.reverse.dropWhile (fun c => decide (c ≠ '/'))).reverse = D
      at hlen hpdata ⊢
    rw [hlen, hpdata]
    exact List.take_left _ _
  refine ⟨by rw [htake]; exact hpdata, ?_, ?_⟩
  · intro c hc
    rw [hnd] at hc
    have := List.mem_takeWhile_imp (List.mem_reverse.1 hc)
    simpa using this
  · rw [htake]
    cases hdw : p.data.reverse.dropWhile (fun c => decide (c ≠ '/')) with
    | nil => left; rfl
    | cons a t =>
      right
      have ha : (decide (a ≠ '/')) = false :=
        dropWhile_head_false (fun c => decide (c ≠ '/')) _ hdw
      have ha' : a = '/' := by simpa using ha
      rw [List.reverse_cons, ha']
      exact ⟨t.reverse, rfl⟩

theorem ext_lt_name (p : String) (hp : (nameOf p).data ≠ []) :
    (extOf p).data.length < (nameOf p).data.length := by
  have hch : extOf p = if 0 <
        ((nameOf p).data.reverse.takeWhile (fun c => decide (c ≠ '.'))).length ∧
        ((nameOf p).data.reverse.takeWhile (fun c => decide (c ≠ '.'))).length + 1 <
          (nameOf p).data.length then
      (⟨'.' :: ((nameOf p).data.reverse.takeWhile (fun c => decide (c ≠ '.'))).reverse⟩ : String)
    else "" := rfl
  by_cases hc : 0 < ((nameOf p).data.reverse.takeWhile (fun c => decide (c ≠ '.'))).length ∧
      ((nameOf p).data.reverse.takeWhile (fun c => decide (c ≠ '.'))).length + 1 <
        (nameOf p).data.length
  · rw [hch, if_pos hc]
    have hd : ((⟨'.' ::
        ((nameOf p).data.reverse.takeWhile (fun c => decide (c ≠ '.'))).reverse⟩ :
          String)).data = '.' ::
        ((nameOf p).data.reverse.takeWhile (fun c => decide (c ≠ '.'))).reverse := rfl
    rw [hd]
    have h2 := hc.2
    simp only [List.length_cons, List.length_reverse]
    omega
  · rw [hch, if_neg hc]
    have h0 : ("" : String).data = [] := rfl
    rw [h0]
    simpa using List.length_pos.2 hp

theorem digitChar_ne {m : Nat} (hm : m < 10) :
    Nat.digitChar m ≠ '/' ∧ Nat.digitChar m ≠ '.' := by
  interval_cases m <;> exact ⟨by decide, by decide⟩

theorem toDigitsCore_chars :
    ∀ (f n : Nat) (acc : List Char) (c : Char),
      c ∈ Nat.toDigitsCore 10 f n acc →
        (∃ m, m < 10 ∧ c = Nat.digitChar m) ∨ c ∈ acc := by
  intro f
  induction f with
  | zero =>
    intro n acc c hc
    simp only [Nat.toDigitsCore] at hc
    exact Or.inr hc
  | succ f ih =>
    intro n acc c hc
    simp only [Nat.toDigitsCore] at hc
    by_cases h : n / 10 = 0
    · rw [if_pos h] at hc
      rcases List.mem_cons.1 hc with rfl | h2
      · exact Or.inl ⟨n % 10, Nat.mod_lt _ (by norm_num), rfl⟩
      · exact Or.inr h2
    · rw [if_neg h] at hc
      rcases ih (n / 10) (Nat.digitChar (n % 10) :: acc) c hc with h1 | h1
      · exact Or.inl h1
      · rcases List.mem_cons.1 h1 with rfl | h2
        · exact Or.inl ⟨n % 10, Nat.mod_lt _ (by norm_num), rfl⟩
        · exact Or.inr h2

theorem repr_chars (i : Nat) (c : Char) (hc : c ∈ (Nat.repr i).data) :
    c ≠ '/' ∧ c ≠ '.' := by
  simp only [Nat.repr, Nat.toDigits, List.asString] at hc
  rcases toDigitsCore_chars (i + 1) i [] c hc with ⟨m, hm, rfl⟩ | h
  · exact digitChar_ne hm
  · cases h

theorem withSuffix_target_shape (p s : String) (kind : List Char)
    (hs : s.data = '.' :: kind) (hp : (nameOf p).data ≠ [])
    (hk : ∀ c ∈ kind, c ≠ '/' ∧ c ≠ '.') (hkne : kind ≠ []) :
    ∃ m, (∀ c ∈ m, c ≠ '/') ∧ m ≠ [] ∧
      (nameOf (withSuffix p s)).data = m ++ '.' :: kind ∧
      (extOf (withSuffix p s)).data = '.' :: kind := by
  obtain ⟨hdec, hchars, hdir⟩ := nameOf_decomp p
  have hq : (withSuffix p s).data =
      p.data.take (p.data.length - (nameOf p).data.length) ++
        ((nameOf p).data.take ((nameOf p).data.length - (extOf p).data.length) ++
          '.' :: kind) := by
    have h0 : (withSuffix p s).data =
        (p.data.take (p.data.length - (nameOf p).data.length) ++
          (nameOf p).data.take ((nameOf p).data.length - (extOf p).data.length)) ++
            s.data := rfl
    rw [h0, hs, List.append_assoc]
  have hm : ∀ c ∈ (nameOf p).data.take ((nameOf p).data.length - (extOf p).data.length),
      c ≠ '/' := fun c hc => hchars c (List.mem_of_mem_take hc)
  have hmne : (nameOf p).data.take ((nameOf p).data.length - (extOf p).data.length) ≠ [] := by
    apply List.ne_nil_of_length_pos
    rw [List.length_take]
    have h1 := ext_lt_name p hp
    have h2 := List.length_pos.2 hp
    omega
  obtain ⟨h1, h2⟩ := shape_data (withSuffix p s) _ _ kind hq hdir hm hmne hk hkne
  exact ⟨_, hm, hmne, h1, h2⟩

theorem candidateAt_target_shape (t : String) (kind m : List Char) (i : Nat)
    (hmc : ∀ c ∈ m, c ≠ '/')
    (hname : (nameOf t).data = m ++ '.' :: kind)
    (hext : (extOf t).data = '.' :: kind)
    (hk : ∀ c ∈ kind, c ≠ '/' ∧ c ≠ '.') (hkne : kind ≠ []) :
    (nameOf (candidateAt t i)).data =
      (m ++ '-' :: (Nat.repr i).data) ++ '.' :: kind ∧
    (extOf (candidateAt t i)).data = '.' :: kind := by
  obtain ⟨hdec, hchars, hdir⟩ := nameOf_decomp t
  have hstem : (nameOf t).data.take ((nameOf t).data.length - (extOf t).data.length) = m := by
    rw [hname, hext]
    have hl : (m ++ '.' :: kind).length - ('.' :: kind).length = m.length := by
      simp [List.length_append]
    rw [hl]
    exact List.take_left _ _
  have hws : (withSuffix t "").data =
      t.data.take (t.data.length - (nameOf t).data.length) ++ m := by
    have h0 : (withSuffix t "").data =
        (t.data.take (t.data.length - (nameOf t).data.length) ++
          (nameOf t).data.take ((nameOf t).data.length - (extOf t).data.length)) ++
            ("" : String).data := rfl
    rw [h0, hstem, show ("" : String).data = [] from rfl, List.append_nil]
  have hcand : (candidateAt t i).data =
      t.data.take (t.data.length - (nameOf t).data.length) ++
        ((m ++ '-' :: (Nat.repr i).data) ++ '.' :: kind) := by
    have h0 : (candidateAt t i).data =
        (((withSuffix t "").data ++ ("-" : String).data) ++ (Nat.repr i).data) ++
          (extOf t).data := by
      simp [candidateAt, String.data_append]
    rw [h0, hws, hext, show ("-" : String).data = ['-'] from rfl]
    simp
  refine shape_data (candidateAt t i) _ _ kind hcand hdir ?_ (by simp) hk hkne
  intro c hc
  rcases List.mem_append.1 hc with h1 | h1
  · exact hmc c h1
  · rcases List.mem_cons.1 h1 with rfl | h2
    · decide
    · exact (repr_chars i c h2).1

/-! ### Helper lemmas: classifier case analysis, the scan invariant -/

theorem sniff_cases (nm : String) (d : FileData) :
    sniff_kind_and_error nm d = (none, none) ∨
    sniff_kind_and_error nm d = (some "pdf", none) ∨
    sniff_kind_and_error nm d = (some "docx", none) ∨
    sniff_kind_and_error nm d = (none, some (htmlErrMsg nm (read_head d 2048))) := by
  simp only [sniff_kind_and_error]
  by_cases h0 : read_head d 2048 = []
  · rw [if_pos h0]; exact .inl rfl
  · rw [if_neg h0]
    by_cases h1 : hasPfx (read_head d 2048) pdfMagic = true
    · rw [if_pos h1]; exact .inr (.inl rfl)
    · rw [if_neg h1]
      by_cases h2 : hasPfx (read_head d 2048) zipMagic = true
      · rw [if_pos h2]; exact .inr (.inr (.inl rfl))
      · rw [if_neg h2]
        by_cases h3 : (hasPfx (bytesLower (bytesLstrip (read_head d 2048))) doctypeBytes
            || hasPfx (bytesLower (bytesLstrip (read_head d 2048))) htmlBytes) = true
        · rw [if_pos h3]; exact .inr (.inr (.inr rfl))
        · rw [if_neg h3]; exact .inl rfl

theorem sniff_kind_indep (nm nm' : String) (d : FileData) (k : String)
    (h : sniff_kind_and_error nm d = (some k, none)) :
    sniff_kind_and_error nm' d = (some k, none) := by
  simp only [sniff_kind_and_error] at h ⊢
  by_cases h0 : read_head d 2048 = []
  · rw [if_pos h0] at h; simp at h
  · rw [if_neg h0] at h ⊢
    by_cases h1 : hasPfx (read_head d 2048) pdfMagic = true
    · rw [if_pos h1] at h ⊢; exact h
    · rw [if_neg h1] at h ⊢
      by_cases h2 : hasPfx (read_head d 2048) zipMagic = true
      · rw [if_pos h2] at h ⊢; exact h
      · rw [if_neg h2] at h ⊢
        by_cases h3 : (hasPfx (bytesLower (bytesLstrip (read_head d 2048))) doctypeBytes
            || hasPfx (bytesLower (bytesLstrip (read_head d 2048))) htmlBytes) = true
        · rw [if_pos h3] at h; simp at h
        · rw [if_neg h3] at h; simp at h

theorem sniff_fst_cases (nm : String) (d : FileData) (k : String)
    (h : (sniff_kind_and_error nm d).1 = some k) : k = "pdf" ∨ k = "docx" := by
  rcases sniff_cases nm d with hc | hc | hc | hc <;> rw [hc] at h
  · simp at h
  · exact Or.inl (by simpa using h.symm)
  · exact Or.inr (by simpa using h.symm)
  · simp at h

theorem sniff_snd_shape (nm : String) (d : FileData) (m : String)
    (h : (sniff_kind_and_error nm d).2 = some m) :
    m = htmlErrMsg nm (read_head d 2048) := by
  rcases sniff_cases nm d with hc | hc | hc | hc <;> rw [hc] at h
  · simp at h
  · simp at h
  · simp at h
  · simpa using h.symm

theorem matchInv_append (q : String) (d : FileData) (errs more : List String)
    (h : MatchInv q d errs) : MatchInv q d (errs ++ more) := by
  unfold MatchInv at h ⊢
  rcases h with h | ⟨h1, h2⟩ | h | h
  · exact .inl h
  · refine .inr (.inl ⟨h1, ?_⟩)
    cases errs with
    | nil => exact absurd rfl h2
    | cons a t => simp
  · exact .inr (.inr (.inl h))
  · exact .inr (.inr (.inr h))

theorem name_ne_nil_of_wf {fs : FS} (hwf : WF fs) {p : String} {d : FileData}
    (h : fsGet fs p = some d) : (nameOf p).data ≠ [] := by
  have hmem := fsGet_mem_keys h
  have hne := hwf.2 p hmem
  intro hnil
  exact hne (strData_ext (by rw [hnil]))

theorem normStep_skip {st : ScanSt} {p : String} {d : FileData}
    (hget : fsGet st.fs p = some d)
    (h : stubExts.contains (extLower p) = true ∨
         sniff_kind_and_error (nameOf p) d = (none, none) ∨
         (∃ k, sniff_kind_and_error (nameOf p) d = (some k, none) ∧
            (k = "pdf" ∨ k = "docx") ∧ extLower p = "." ++ k)) :
    normStep st p = Except.ok st := by
  by_cases hstub : stubExts.contains (extLower p) = true
  · have hstub' : extLower p ∈ stubExts := by simpa using hstub
    simp [normStep, hget, hstub']
  · have hstub' : extLower p ∉ stubExts := by simpa using hstub
    rcases h with h | h | ⟨k, hsn, hk, he⟩
    · exact absurd h hstub
    · simp [normStep, hget, hstub', h]
    · rcases hk with rfl | rfl
      · have he' : extLower p = ".pdf" := by rw [he]; decide
        simp [normStep, hget, hstub', hsn, he']
      · have he' : extLower p = ".docx" := by rw [he]; decide
        simp [normStep, hget, hstub', hsn, he']

theorem normStep_err {st : ScanSt} {p : String} {d : FileData} {msg : String}
    (hget : fsGet st.fs p = some d)
    (hstub : stubExts.contains (extLower p) = false)
    (hsn : (sniff_kind_and_error (nameOf p) d).2 = some msg) :
    normStep st p = Except.ok { st with errs := st.errs ++ [msg] } := by
  have hstub' : extLower p ∉ stubExts := by simpa using hstub
  rcases hsnp : sniff_kind_and_error (nameOf p) d with ⟨k1, k2⟩
  rw [hsnp] at hsn
  simp only at hsn
  subst hsn
  simp [normStep, hget, hstub', hsnp]

theorem normStep_doc {st : ScanSt} {p : String} {d : FileData} {k : String}
    (hget : fsGet st.fs p = some d)
    (hstub : stubExts.contains (extLower p) = false)
    (hsn : sniff_kind_and_error (nameOf p) d = (some k, none))
    (hne : extLower p ≠ "." ++ k) :
    normStep st p = (match unique_path st.fs (withSuffix p ("." ++ k)) with
      | some tgt =>
        Except.ok { st with fs := fsRename st.fs p tgt, renames := st.renames + 1 }
      | none => Except.error (.uniqueExhausted (withSuffix p ("." ++ k)))) := by
  have hstub' : extLower p ∉ stubExts := by simpa using hstub
  by_cases hdoc : extLower p = ".pdf" ∨ extLower p = ".docx"
  · simp [normStep, hget, hstub', hsn, hdoc, hne]
  · simp [normStep, hget, hstub', hsn, hdoc]

theorem extLower_data (t : String) :
    (extLower t).data = (extOf t).data.map Char.toLower := rfl

theorem rename_target_props (p : String) (kindS : String)
    (hkind : kindS = "pdf" ∨ kindS = "docx")
    (hp : (nameOf p).data ≠ []) {fs : FS} {tgt : String}
    (h : unique_path fs (withSuffix p ("." ++ kindS)) = some tgt) :
    fsHas fs tgt = false ∧ extLower tgt = "." ++ kindS ∧ nameOf tgt ≠ "" := by
  obtain ⟨hfree, hshape⟩ := unique_path_spec h
  have hs : ("." ++ kindS).data = '.' :: kindS.data := by
    rw [String.data_append, show (".".data : List Char) = ['.'] from rfl,
      List.singleton_append]
  have hk : ∀ c ∈ kindS.data, c ≠ '/' ∧ c ≠ '.' := by
    rcases hkind with rfl | rfl <;> decide
  have hkne : kindS.data ≠ [] := by
    rcases hkind with rfl | rfl <;> decide
  obtain ⟨m, hmc, hmne, hname, hext⟩ :=
    withSuffix_target_shape p ("." ++ kindS) kindS.data hs hp hk hkne
  rcases hshape with rfl | ⟨i, rfl⟩
  · refine ⟨hfree, ?_, ?_⟩
    · apply strData_ext
      rw [extLower_data, hext, hs]
      rcases hkind with rfl | rfl <;> decide
    · intro he
      rw [he] at hname
      rw [show ("" : String).data = [] from rfl] at hname
      exact absurd hname.symm (by simp)
  · obtain ⟨hname2, hext2⟩ :=
      candidateAt_target_shape _ kindS.data m i hmc hname hext hk hkne
    refine ⟨hfree, ?_, ?_⟩
    · apply strData_ext
      rw [extLower_data, hext2, hs]
      rcases hkind with rfl | rfl <;> decide
    · intro he
      rw [he] at hname2
      rw [show ("" : String).data = [] from rfl] at hname2
      exact absurd hname2.symm (by simp)

set_option maxHeartbeats 1000000 in
theorem normScan_fold (fs : FS) :
    ∀ (ps : List String) (st : ScanSt),
      WF st.fs →
      ps.Nodup →
      (∀ p ∈ ps, ∃ d, fsGet st.fs p = some d ∧ fsGet fs p = some d) →
      (∀ q d, (q, d) ∈ st.fs → q ∈ ps ∨ MatchInv q d st.errs) →
      ∀ st', List.foldlM normStep st ps = Except.ok st' →
        WF st'.fs ∧
        st'.errs = st.errs ++ ps.filterMap (errOf fs) ∧
        (∀ q d, (q, d) ∈ st'.fs → MatchInv q d st'.errs) ∧
        (∀ q, q ∉ ps → fsGet st.fs q ≠ none → fsGet st'.fs q = fsGet st.fs q) ∧
        (∀ p ∈ ps, errOf fs p ≠ none → fsGet st'.fs p = fsGet fs p) := by
  intro ps
  induction ps with
  | nil =>
    intro st hwf _ _ hinv st' hfold
    have hst : st = st' := by
      have h1 : (pure st : Except NormErr ScanSt) = Except.ok st' := by simpa using hfold
      exact Except.ok.inj h1
    subst hst
    refine ⟨hwf, by simp, fun q d hqd => ?_, fun q _ _ => rfl, by simp⟩
    rcases hinv q d hqd with h | h
    · exact absurd h (List.not_mem_nil q)
    · exact h
  | cons hd tl ih =>
    intro st hwf hnd hkeys hinv st' hfold
    obtain ⟨d, hget, hgetfs⟩ := hkeys hd (by simp)
    have hndp : (nameOf hd).data ≠ [] := name_ne_nil_of_wf hwf hget
    have hdtl : hd ∉ tl := (List.nodup_cons.1 hnd).1
    have hndtl : tl.Nodup := (List.nodup_cons.1 hnd).2
    rw [foldlM_cons_eq] at hfold
    have skip_case : normStep st hd = Except.ok st → errOf fs hd = none →
        MatchInv hd d st.errs →
        WF st'.fs ∧
        st'.errs = st.errs ++ (hd :: tl).filterMap (errOf fs) ∧
        (∀ q d', (q, d') ∈ st'.fs → MatchInv q d' st'.errs) ∧
        (∀ q, q ∉ hd :: tl → fsGet st.fs q ≠ none → fsGet st'.fs q = fsGet st.fs q) ∧
        (∀ p ∈ hd :: tl, errOf fs p ≠ none → fsGet st'.fs p = fsGet fs p) := by
      intro hok herr hM
      rw [hok, exceptBind_ok] at hfold
      obtain ⟨w1, w2, w3, w4, w5⟩ := ih st hwf hndtl
        (fun p hp => hkeys p (List.mem_cons_of_mem _ hp))
        (fun q d' hqd => by
          rcases hinv q d' hqd with hq | hMq
          · rcases List.mem_cons.1 hq with rfl | hqt
            · have hgq : fsGet st.fs q = some d' := mem_fsGet hwf.1 hqd
              have hdd : d' = d := Option.some.inj (hgq.symm.trans hget)
              subst hdd
              exact Or.inr hM
            · exact Or.inl hqt
          · exact Or.inr hMq)
        st' hfold
      refine ⟨w1, ?_, w3, ?_, ?_⟩
      · rw [w2, List.filterMap_cons_none herr]
      · intro q hq hqn
        exact w4 q (fun hh => hq (List.mem_cons_of_mem _ hh)) hqn
      · intro p hp hperr
        rcases List.mem_cons.1 hp with rfl | hh
        · exact absurd herr hperr
        · exact w5 p hh hperr
    by_cases hstub : stubExts.contains (extLower hd) = true
    · have herr : errOf fs hd = none := by
        unfold errOf
        rw [hgetfs]
        exact if_pos hstub
      exact skip_case (normStep_skip hget (Or.inl hstub)) herr (Or.inl hstub)
    · have hstubF : stubExts.contains (extLower hd) = false := Bool.eq_false_iff.2 hstub
      have h0 : errOf fs hd = (sniff_kind_and_error (nameOf hd) d).2 := by
        unfold errOf
        rw [hgetfs]
        exact if_neg hstub
      have rename_case : ∀ kindS : String, (kindS = "pdf" ∨ kindS = "docx") →
          sniff_kind_and_error (nameOf hd) d = (some kindS, none) →
          ¬ extLower hd = "." ++ kindS →
          WF st'.fs ∧
          st'.errs = st.errs ++ (hd :: tl).filterMap (errOf fs) ∧
          (∀ q d', (q, d') ∈ st'.fs → MatchInv q d' st'.errs) ∧
          (∀ q, q ∉ hd :: tl → fsGet st.fs q ≠ none → fsGet st'.fs q = fsGet st.fs q) ∧
          (∀ p ∈ hd :: tl, errOf fs p ≠ none → fsGet st'.fs p = fsGet fs p) := by
        intro kindS hkind hsn hne
        have herr : errOf fs hd = none := by rw [h0, hsn]
        have hok := normStep_doc hget hstubF hsn hne
        cases huniq : unique_path st.fs (withSuffix hd ("." ++ kindS)) with
        | none =>
          rw [huniq] at hok
          rw [hok, exceptBind_err] at hfold
          cases hfold
        | some tgt =>
          rw [huniq] at hok
          rw [hok, exceptBind_ok] at hfold
          obtain ⟨hfree, hextL, hnameL⟩ := rename_target_props hd kindS hkind hndp huniq
          have htgtK : tgt ∉ st.fs.map Prod.fst := by
            intro hm
            have := (fsHas_iff st.fs tgt).2 hm
            rw [hfree] at this
            cases this
          have hwf1 : WF (fsRename st.fs hd tgt) := by
            constructor
            · rw [keys_fsRename]
              exact nodup_map_replace hd tgt hwf.1 htgtK
            · intro q hq
              rcases mem_keys_fsRename_elim hq with rfl | hq2
              · exact hnameL
              · exact hwf.2 q hq2
          have hkeys1 : ∀ p' ∈ tl, ∃ d', fsGet (fsRename st.fs hd tgt) p' = some d' ∧
              fsGet fs p' = some d' := by
            intro p' hp'
            obtain ⟨d', hg1, hg2⟩ := hkeys p' (List.mem_cons_of_mem _ hp')
            have hp'hd : p' ≠ hd := fun hh => hdtl (hh ▸ hp')
            have hp'tgt : p' ≠ tgt := by
              intro hh
              apply htgtK
              rw [← hh]
              exact fsGet_mem_keys hg1
            exact ⟨d', by rw [fsGet_fsRename_ne st.fs hd tgt p' hp'hd hp'tgt]; exact hg1,
              hg2⟩
          have hinv1 : ∀ q d', (q, d') ∈ fsRename st.fs hd tgt →
              q ∈ tl ∨ MatchInv q d' st.errs := by
            intro q d' hqd
            rcases mem_fsRename_elim hqd with ⟨hmem, hne1⟩ | ⟨hq1, hmem⟩
            · rcases hinv q d' hmem with hq | hMq
              · rcases List.mem_cons.1 hq with rfl | hqt
                · exact absurd rfl hne1
                · exact Or.inl hqt
              · exact Or.inr hMq
            · right
              have hq1' : q = tgt := hq1
              have hdd : d' = d := Option.some.inj ((mem_fsGet hwf.1 hmem).symm.trans hget)
              rw [hq1', hdd]
              refine Or.inr (Or.inr (Or.inr ⟨kindS, ?_, hkind, hextL⟩))
              exact sniff_kind_indep (nameOf hd) (nameOf tgt) d kindS hsn
          obtain ⟨w1, w2, w3, w4, w5⟩ :=
            ih ⟨fsRename st.fs hd tgt, st.errs, st.renames + 1⟩ hwf1 hndtl hkeys1 hinv1
              st' hfold
          refine ⟨w1, ?_, w3, ?_, ?_⟩
          · rw [w2, List.filterMap_cons_none herr]
          · intro q hq hqn
            have hqhd : q ≠ hd := fun hh => hq (hh ▸ List.mem_cons_self hd tl)
            have hqtgt : q ≠ tgt := by
              intro hh
              apply htgtK
              rw [← hh]
              cases hgq : fsGet st.fs q with
              | none => exact absurd hgq hqn
              | some dq => exact fsGet_mem_keys hgq
            have hq1 : fsGet (fsRename st.fs hd tgt) q = fsGet st.fs q :=
              fsGet_fsRename_ne st.fs hd tgt q hqhd hqtgt
            exact (w4 q (fun hh => hq (List.mem_cons_of_mem _ hh))
              (by rw [hq1]; exact hqn)).trans hq1
          · intro p hp hperr
            rcases List.mem_cons.1 hp with rfl | hh
            · exact absurd herr hperr
            · exact w5 p hh hperr
      rcases sniff_cases (nameOf hd) d with hsn | hsn | hsn | hsn
      · have herr : errOf fs hd = none := by rw [h0, hsn]
        exact skip_case (normStep_skip hget (Or.inr (Or.inl hsn))) herr
          (Or.inr (Or.inr (Or.inl hsn)))
      · by_cases hmatch : extLower hd = "." ++ "pdf"
        · have herr : errOf fs hd = none := by rw [h0, hsn]
          exact skip_case
            (normStep_skip hget (Or.inr (Or.inr ⟨"pdf", hsn, Or.inl rfl, hmatch⟩))) herr
            (Or.inr (Or.inr (Or.inr ⟨"pdf", hsn, Or.inl rfl, hmatch⟩)))
        · exact rename_case "pdf" (Or.inl rfl) hsn hmatch
      · by_cases hmatch : extLower hd = "." ++ "docx"
        · have herr : errOf fs hd = none := by rw [h0, hsn]
          exact skip_case
            (normStep_skip hget (Or.inr (Or.inr ⟨"docx", hsn, Or.inr rfl, hmatch⟩))) herr
            (Or.inr (Or.inr (Or.inr ⟨"docx", hsn, Or.inr rfl, hmatch⟩)))
        · exact rename_case "docx" (Or.inr rfl) hsn hmatch
      · generalize hMsg : htmlErrMsg (nameOf hd) (read_head d 2048) = M at hsn
        have hsn2 : (sniff_kind_and_error (nameOf hd) d).2 = some M := by rw [hsn]
        have herr : errOf fs hd = some M := by rw [h0, hsn2]
        have hok := normStep_err hget hstubF hsn2
        rw [hok, exceptBind_ok] at hfold
        obtain ⟨w1, w2, w3, w4, w5⟩ := ih ⟨st.fs, st.errs ++ [M], st.renames⟩ hwf hndtl
          (fun p hp => hkeys p (List.mem_cons_of_mem _ hp))
          (fun q d' hqd => by
            rcases hinv q d' hqd with hq | hMq
            · rcases List.mem_cons.1 hq with rfl | hqt
              · have hgq : fsGet st.fs q = some d' := mem_fsGet hwf.1 hqd
                have hdd : d' = d := Option.some.inj (hgq.symm.trans hget)
                subst hdd
                refine Or.inr (Or.inr (Or.inl ⟨?_, by simp⟩))
                rw [hsn2]
                simp
              · exact Or.inl hqt
            · exact Or.inr (matchInv_append q d' st.errs [M] hMq))
          st' hfold
        refine ⟨w1, ?_, w3, ?_, ?_⟩
        · rw [w2, List.filterMap_cons_some herr]
          simp
        · intro q hq hqn
          exact w4 q (fun hh => hq (List.mem_cons_of_mem _ hh)) hqn
        · intro p hp hperr
          rcases List.mem_cons.1 hp with rfl | hh
          · have hw := w4 p hdtl (by rw [hget]; simp)
            exact hw.trans (hget.trans hgetfs.symm)
          · exact w5 p hh hperr

theorem normScan_spec (fs : FS) (hwf : WF fs) (st : ScanSt)
    (h : normScan fs = Except.ok st) :
    WF st.fs ∧
    st.errs = (sortedPaths fs).filterMap (errOf fs) ∧
    (∀ q d, (q, d) ∈ st.fs → MatchInv q d st.errs) ∧
    (∀ p ∈ sortedPaths fs, errOf fs p ≠ none → fsGet st.fs p = fsGet fs p) := by
  have hperm : List.Perm (sortedPaths fs) (fs.map Prod.fst) :=
    pySorted_perm (fun a b => strLeB (strLower a) (strLower b)) (fs.map Prod.fst)
  have hnd : (sortedPaths fs).Nodup := hperm.nodup_iff.2 hwf.1
  have hkeys : ∀ p ∈ sortedPaths fs, ∃ d, fsGet fs p = some d ∧ fsGet fs p = some d := by
    intro p hp
    have hpk : p ∈ fs.map Prod.fst := hperm.mem_iff.1 hp
    obtain ⟨⟨p', d'⟩, he, hpe⟩ := List.mem_map.1 hpk
    have hp' : p' = p := hpe
    subst hp'
    exact ⟨d', mem_fsGet hwf.1 he, mem_fsGet hwf.1 he⟩
  have hinv : ∀ q d, (q, d) ∈ fs → q ∈ sortedPaths fs ∨ MatchInv q d ([] : List String) := by
    intro q d hqd
    exact Or.inl (hperm.mem_iff.2 (List.mem_map.2 ⟨(q, d), hqd, rfl⟩))
  obtain ⟨w1, w2, w3, w4, w5⟩ :=
    normScan_fold fs (sortedPaths fs) ⟨fs, [], 0⟩ hwf hnd hkeys hinv st h
  refine ⟨w1, by simpa using w2, w3, ?_⟩
  intro p hp hperr
  exact w5 p hp hperr

theorem normalize_ok_inv (fs : FS) (hwf : WF fs) (fs' : FS) (n : Nat)
    (h : normalize_downloaded_files fs = Except.ok (fs', n)) :
    WF fs' ∧ (∀ q d, (q, d) ∈ fs' → MatchInv q d []) := by
  unfold normalize_downloaded_files at h
  cases hscan : normScan fs with
  | error e => rw [hscan] at h; cases h
  | ok st =>
    rw [hscan] at h
    by_cases herrs : st.errs.isEmpty = true
    · have h' : (if st.errs.isEmpty = true then Except.ok (st.fs, st.renames)
          else Except.error (NormErr.htmlPages (aggMsg st.errs))) =
            Except.ok (fs', n) := h
      rw [if_pos herrs] at h'
      have hpair : (st.fs, st.renames) = (fs', n) := Except.ok.inj h'
      have hfs : st.fs = fs' := congrArg Prod.fst hpair
      have hnil : st.errs = [] := List.isEmpty_iff.1 herrs
      obtain ⟨w1, w2, w3, _⟩ := normScan_spec fs hwf st hscan
      rw [hnil] at w3
      rw [hfs] at w1 w3
      exact ⟨w1, w3⟩
    · have h' : (if st.errs.isEmpty = true then Except.ok (st.fs, st.renames)
          else Except.error (NormErr.htmlPages (aggMsg st.errs))) =
            Except.ok (fs', n) := h
      rw [if_neg herrs] at h'
      cases h'

theorem normScan_stable (fs' : FS) (hwf : WF fs')
    (hinv : ∀ q d, (q, d) ∈ fs' → MatchInv q d []) :
    normScan fs' = Except.ok ⟨fs', [], 0⟩ := by
  apply foldlM_ok_id
  intro p hp
  have hperm : List.Perm (sortedPaths fs') (fs'.map Prod.fst) :=
    pySorted_perm (fun a b => strLeB (strLower a) (strLower b)) (fs'.map Prod.fst)
  have hpk : p ∈ fs'.map Prod.fst := hperm.mem_iff.1 hp
  obtain ⟨⟨p', d⟩, he, hpe⟩ := List.mem_map.1 hpk
  have hp' : p' = p := hpe
  rw [hp'] at he
  have hget : fsGet fs' p = some d := mem_fsGet hwf.1 he
  rcases hinv p d he with h1 | ⟨_, h2⟩ | h1 | ⟨k, h1, hk, he2⟩
  · exact normStep_skip hget (Or.inl h1)
  · exact absurd rfl h2
  · exact normStep_skip hget (Or.inr (Or.inl h1))
  · exact normStep_skip hget (Or.inr (Or.inr ⟨k, h1, hk, he2⟩))

/-- C2 (corrected).  If normalization succeeds, a surviving non-stub file
whose byte signature is recognized as kind `k` (`pdf` or `docx`) has the
matching lower-cased extension `.k`.  (The converse of the original claim
fails: a `.pdf`-named file with an unrecognized signature survives, see the
counterexample.) -/
theorem normalized_ext_matches_signature (fs : FS) (hwf : WF fs)
    (fs' : FS) (n : Nat) (h : normalize_downloaded_files fs = Except.ok (fs', n)) :
    ∀ q d, (q, d) ∈ fs' → stubExts.contains (extLower q) = false →
      ∀ k, (sniff_kind_and_error (nameOf q) d).1 = some k → extLower q = "." ++ k := by
  obtain ⟨_, hinv⟩ := normalize_ok_inv fs hwf fs' n h
  intro q d hqd hstub k hk
  rcases hinv q d hqd with h1 | ⟨_, h2⟩ | h1 | ⟨k', h1, _, he⟩
  · rw [hstub] at h1; cases h1
  · exact absurd rfl h2
  · rw [h1] at hk; simp at hk
  · rw [h1] at hk
    have hkk : k' = k := by simpa using hk
    rw [← hkk]
    exact he

theorem normalized_ext_matches_signature_witness :
    extLower "A.pdf" = "." ++ "pdf" :=
  normalized_ext_matches_signature exRenamesDone (by decide) exRenamesDone 0 (by decide)
    "A.pdf" ⟨pdfBytes, true⟩ (by decide) (by decide) "pdf" (by decide)

/-- C4 (confirmed).  Normalization is idempotent: the tree produced by a
successful normalization re-normalizes successfully with zero renames. -/
theorem normalize_idempotent (fs : FS) (hwf : WF fs) (fs' : FS) (n : Nat)
    (h : normalize_downloaded_files fs = Except.ok (fs', n)) :
    normalize_downloaded_files fs' = Except.ok (fs', 0) := by
  obtain ⟨hwf', hinv⟩ := normalize_ok_inv fs hwf fs' n h
  have hscan := normScan_stable fs' hwf' hinv
  unfold normalize_downloaded_files
  rw [hscan]
  rfl

theorem normalize_idempotent_witness :
    normalize_downloaded_files exRenamesDone = Except.ok (exRenamesDone, 0) :=
  normalize_idempotent exRenames (by decide) exRenamesDone 2 (by decide)

/-- C3 (corrected).  On a well-formed tree the scan records one message per
non-stub HTML-error-page file (in case-insensitive path order), leaves every
such file unrenamed, succeeds exactly when no message was recorded, and
otherwise fails once with the aggregated message built from the FIRST THREE
recorded messages only (`html_errors[:3]`); each recorded message contains
the offending file's name. -/
theorem html_pages_aggregated (fs : FS) (hwf : WF fs)
    (st : ScanSt) (h : normScan fs = Except.ok st) :
    st.errs = (sortedPaths fs).filterMap (errOf fs) ∧
    (∀ p ∈ sortedPaths fs, errOf fs p ≠ none → fsGet st.fs p = fsGet fs p) ∧
    (st.errs = [] → normalize_downloaded_files fs = Except.ok (st.fs, st.renames)) ∧
    (st.errs ≠ [] → normalize_downloaded_files fs =
      Except.error (NormErr.htmlPages (aggHeader ++ joinSep "\n\n" (st.errs.take 3)))) ∧
    (∀ p m, errOf fs p = some m → strHas m (nameOf p) = true) := by
  obtain ⟨_, w2, _, w4⟩ := normScan_spec fs hwf st h
  refine ⟨w2, w4, ?_, ?_, ?_⟩
  · intro hnil
    unfold normalize_downloaded_files
    rw [h]
    show (if st.errs.isEmpty = true then Except.ok (st.fs, st.renames)
      else Except.error (NormErr.htmlPages (aggMsg st.errs))) = Except.ok (st.fs, st.renames)
    rw [if_pos (List.isEmpty_iff.2 hnil)]
  · intro hne
    unfold normalize_downloaded_files
    rw [h]
    show (if st.errs.isEmpty = true then Except.ok (st.fs, st.renames)
      else Except.error (NormErr.htmlPages (aggMsg st.errs))) =
        Except.error (NormErr.htmlPages (aggHeader ++ joinSep "\n\n" (st.errs.take 3)))
    rw [if_neg (fun hh => hne (List.isEmpty_iff.1 hh))]
    rfl
  · intro p m hm
    unfold errOf at hm
    cases hg : fsGet fs p with
    | none => rw [hg] at hm; cases hm
    | some d =>
      rw [hg] at hm
      have hm' : (if stubExts.contains (extLower p) = true then none
          else (sniff_kind_and_error (nameOf p) d).2) = some m := hm
      by_cases hstub : stubExts.contains (extLower p) = true
      · rw [if_pos hstub] at hm'; cases hm'
      · rw [if_neg hstub] at hm'
        have hshape := sniff_snd_shape (nameOf p) d m hm'
        rw [hshape]
        unfold strHas
        apply (hasSub_iff _ _).2
        refine ⟨("Downloaded HTML instead of a file for: " : String).data,
          ("\n---\n" ++ decodeLossy ((read_head d 2048).take 300) ++ "\n---" : String).data,
          ?_⟩
        simp [htmlErrMsg, String.data_append]

theorem html_pages_aggregated_witness :
    normalize_downloaded_files exFourHtml =
      Except.error (NormErr.htmlPages (aggHeader ++ joinSep "\n\n" (fourHtmlSt.errs.take 3))) := by
  have h := html_pages_aggregated exFourHtml (by decide) fourHtmlSt (by decide)
  exact h.2.2.2.1 (by decide)

set_option maxRecDepth 10000 in
/-- Counterexample to C3 as stated: with four offending files `a.bin` ..
`d.bin`, normalization fails once, the message names the first three, but
the fourth offending file `d.bin` (which the scan did record) is absent
from the aggregated message. -/
theorem four_html_counterexample :
    normalize_downloaded_files exFourHtml = Except.error (NormErr.htmlPages fourHtmlMsg) ∧
    errOf exFourHtml "d.bin" ≠ none ∧
    strHas fourHtmlMsg "a.bin" = true ∧ strHas fourHtmlMsg "b.bin" = true ∧
    strHas fourHtmlMsg "c.bin" = true ∧ strHas fourHtmlMsg "d.bin" = false := by
  decide

end BuildSite
